import Mathlib

/-!
Verification of the trading-rs repository core against its specification.

Shallow embedding conventions:
* `f64` prices are modelled as `ℚ`; an `f64::NAN` buffer sentinel is
  modelled as `none` in an `Option ℚ` slot, so Rust's `is_nan()` test
  becomes `Option.isNone`, and Rust float comparisons against a possible
  NaN (always false) are modelled by comparisons on `Option ℚ` that are
  false whenever a side is `none`.
* byte buffers (`&[u8]`) are modelled as `List ℕ` of byte values
  (34 = quote, 44 = comma, 46 = dot, 48..57 = digits, 58 = colon,
  91 = opening square bracket, 93 = closing square bracket,
  123 = opening brace, 125 = closing brace).
* a Rust function that can panic is modelled with an `Option` result,
  `none` meaning the panic (abnormal termination).
-/

/-! ## Simple moving average (src/indicators.rs, struct Sma) -/

/-- Sum of a buffer of `Option ℚ` slots, mirroring
`self.data.iter().sum::<f64>()`.  In every branch of the source that takes
this sum the buffer holds no NaN sentinel, so summing `getD 0` over the
slots agrees with the Rust sum there. -/
def optSum (l : List (Option ℚ)) : ℚ :=
  (l.map (fun o => o.getD 0)).sum

/-- State of `Sma` (period, circular buffer, write cursor, cached value). -/
structure Sma where
  period : ℕ
  data : List (Option ℚ)
  index : ℕ
  value : Option ℚ
deriving DecidableEq

/-- Constructor `Sma::new`: buffer full of NaN sentinels. -/
def Sma.new (period : ℕ) : Sma :=
  { period := period, data := List.replicate period none, index := 0, value := none }

/-- Transcription of `Sma::next`. -/
def Sma.next (s : Sma) (value : ℚ) : Sma :=
  if (s.data.getD s.index none).isNone then
    let data := s.data.set s.index (some value)
    if s.index < s.period - 1 then
      { s with data := data, index := s.index + 1 }
    else
      { s with data := data, value := some (optSum data / s.period), index := 0 }
  else
    let data := s.data.set s.index (some value)
    if s.index < s.period - 1 then
      { s with data := data, value := some (optSum data / s.period), index := s.index + 1 }
    else
      { s with data := data, value := some (optSum data / s.period), index := 0 }

/-- Accessor `Sma::get`. -/
def Sma.get (s : Sma) : Option ℚ :=
  s.value

/-- Feeding the same sample `v` to an `Sma` of period `N`, `k` times. -/
def Sma.feedConst (N : ℕ) (v : ℚ) : ℕ → Sma
  | 0 => Sma.new N
  | k + 1 => (Sma.feedConst N v k).next v

/-! ## Exponential moving average (src/indicators.rs, struct Ema) -/

/-- State of `Ema` (running scalar, no buffer). -/
structure Ema where
  period : ℕ
  index : ℕ
  value : Option ℚ
  current : ℚ
  alpha : ℚ
deriving DecidableEq

/-- Constructor `Ema::new` with the default smoothing 2/(period+1). -/
def Ema.new (period : ℕ) : Ema :=
  { period := period, index := 0, value := none, current := 0,
    alpha := 2 / ((period : ℚ) + 1) }

/-- Constructor `Ema::new_with_constant` (explicit alpha, Wilder style). -/
def Ema.new_with_constant (period : ℕ) (alpha : ℚ) : Ema :=
  { period := period, index := 0, value := none, current := 0, alpha := alpha }

/-- Transcription of `Ema::next`. -/
def Ema.next (e : Ema) (price : ℚ) : Ema :=
  if e.index < e.period - 1 then
    { e with current := e.current + price, index := e.index + 1 }
  else if e.index = e.period - 1 then
    let c := (e.current + price) / e.period
    { e with current := c, value := some c, index := e.index + 1 }
  else
    let c := e.current + e.alpha * (price - e.current)
    { e with current := c, value := some c }

/-- Accessor `Ema::get`. -/
def Ema.get (e : Ema) : Option ℚ :=
  e.value

/-! ## Average true range (src/indicators.rs, struct Atr) -/

/-- State of `Atr`. -/
structure Atr where
  period : ℕ
  value : Option ℚ
  current : ℚ
  index : ℕ
deriving DecidableEq

/-- Constructor `Atr::new`. -/
def Atr.new (period : ℕ) : Atr :=
  { period := period, value := none, current := 0, index := 0 }

/-- Transcription of `Atr::next`.  `(self.period - 1) as f64` is usize
subtraction in the source, hence natural subtraction here. -/
def Atr.next (a : Atr) (high close_prev low : ℚ) : Atr :=
  let true_range := max high close_prev - min low close_prev
  if a.index < a.period - 1 then
    { a with current := a.current + true_range, index := a.index + 1 }
  else if a.index = a.period - 1 then
    let c := (a.current + true_range) / a.period
    { a with current := c, value := some c, index := a.index + 1 }
  else
    let c := (a.current * ((a.period - 1 : ℕ) : ℚ) + true_range) / a.period
    { a with current := c, value := some c }

/-- Accessor `Atr::get`. -/
def Atr.get (a : Atr) : Option ℚ :=
  a.value

/-! ## Directional movement composite (src/indicators.rs, struct Adx) -/

/-- State of `Adx`: three Wilder-smoothed averages, an ATR and a cached
value. -/
structure Adx where
  spdm : Ema
  smdm : Ema
  dx : Ema
  atr : Atr
  value : Option ℚ
deriving DecidableEq

/-- Constructor `Adx::new`. -/
def Adx.new (period : ℕ) : Adx :=
  { spdm := Ema.new_with_constant period (1 / (period : ℚ))
    smdm := Ema.new_with_constant period (1 / (period : ℚ))
    dx := Ema.new_with_constant period (1 / (period : ℚ))
    atr := Atr.new period
    value := none }

/-- Transcription of `Adx::next`.  `is_sign_positive()` on a non-NaN f64 is
`0 ≤ x` (the `-0.0` distinction has no counterpart in `ℚ`). -/
def Adx.next (a : Adx) (high high_prev low low_prev close_prev : ℚ) : Adx :=
  let up_move := high - high_prev
  let down_move := low_prev - low
  let pdm := if up_move > down_move ∧ 0 ≤ up_move then up_move else 0
  let mdm := if up_move < down_move ∧ 0 ≤ down_move then down_move else 0
  let spdm := a.spdm.next pdm
  let smdm := a.smdm.next mdm
  let atr := a.atr.next high close_prev low
  let dx :=
    match spdm.get, smdm.get, atr.get with
    | some p, some m, some t =>
        a.dx.next (|(p / t * 100 - m / t * 100) / (p / t * 100 + m / t * 100)| * 100)
    | _, _, _ => a.dx
  let value :=
    match dx.get with
    | some d => some d
    | none => a.value
  { spdm := spdm, smdm := smdm, dx := dx, atr := atr, value := value }

/-- Accessor `Adx::get`, returning (adx value, +DI, -DI). -/
def Adx.get (a : Adx) : Option ℚ × Option ℚ × Option ℚ :=
  match a.spdm.get, a.smdm.get, a.atr.get with
  | some p, some m, some t => (a.value, some (p / t * 100), some (m / t * 100))
  | _, _, _ => (a.value, none, none)

/-! ## Candle interval (src/exchange/mod.rs and src/exchange/binance.rs)

Both files define the same enum and the same `to_millis` body; the binance
variant carries an `i32` multiplier widened with `i64::from` before the
products, so its `i64` arithmetic can never overflow
(2^31 * 86400000 < 2^63) and the integer embedding is exact there. -/

namespace Exchange

/-- The `Interval` enum (named `Exchange.Interval` here because Mathlib
already has a root `Interval`). -/
inductive Interval where
  | Minute : ℤ → Interval
  | Hour : ℤ → Interval
  | Day : ℤ → Interval
  | Week : Interval
  | Month : Interval
deriving DecidableEq

/-- Transcription of `Interval::to_millis`. -/
def Interval.to_millis : Interval → ℤ
  | .Minute m => m * 60 * 1000
  | .Hour h => h * 60 * 60 * 1000
  | .Day d => d * 24 * 60 * 60 * 1000
  | .Week => 7 * 24 * 60 * 60 * 1000
  | .Month => 30 * 60 * 60 * 1000

end Exchange

/-! ## Sell evaluation of the signal engine (src/trading.rs)

Once a position is held (`self.base` nonzero), both engines evaluate a
sell decision from the Bollinger basis `mean`, the upper band `bb_upper`,
the candle `close`, the held base amount `base` and the quote amount
spent at entry `net`.  The functions below transcribe exactly the boolean
computed by the corresponding `if` that triggers the sell order. -/

/-- Sell decision of `Trader::backtest` (src/trading.rs lines 357-387):
`(close > mean && conditional_net.is_sign_positive() && !uptrend_buy_case)
|| close > bb_upper`. -/
def backtest_sell (mean bb_upper close base net : ℚ) (uptrend_buy_case : Bool) : Bool :=
  let conditional_net := base * close / net - 1
  let moving_average_condition :=
    decide (close > mean) && decide (0 ≤ conditional_net) && !uptrend_buy_case
  let bb_upper_condition := decide (close > bb_upper)
  moving_average_condition || bb_upper_condition

/-- Sell decision of `Trader::live` (src/trading.rs lines 517-541): the
source computes `_conditional_net` and `moving_average_condition` but the
order is guarded by `if bb_upper_condition` alone. -/
def live_sell (mean bb_upper close base net : ℚ) : Bool :=
  let _conditional_net := base * close / net - 1
  let _moving_average_condition := decide (close > mean)
  let bb_upper_condition := decide (close > bb_upper)
  bb_upper_condition

/-- Modelled from the spec: the claimed DipEntry-to-Flat sell rule, "price
recovers above the basis while net return is non-negative, or price
exceeds the upper band outright". -/
def spec_dip_sell (mean bb_upper close base net : ℚ) : Bool :=
  (decide (close > mean) && decide (0 ≤ base * close / net - 1)) || decide (close > bb_upper)

/-! ## Sequence-pattern counter (src/indicators.rs, struct TdSeq)

The three five-slot arrays start as `f64::NAN` sentinels (`none` here).
The fields `_buy_stop` and `_sell_stop` are constant and unread in the
source and are omitted. -/

/-- Float comparison `a > b` on buffer slots; false whenever a side is the
NaN sentinel, as for f64. -/
def oGt (a b : Option ℚ) : Bool :=
  match a, b with
  | some x, some y => decide (x > y)
  | _, _ => false

/-- Float comparison `a < b` on buffer slots; false whenever a side is the
NaN sentinel, as for f64. -/
def oLt (a b : Option ℚ) : Bool :=
  match a, b with
  | some x, some y => decide (x < y)
  | _, _ => false

/-- Computation of `prev_index`: `self.index.checked_sub(4)` yields
`Some (index - 4)` when `4 ≤ index` and the code falls back to
`index + 1` otherwise. -/
def prevIdx (i : ℕ) : ℕ :=
  if 4 ≤ i then i - 4 else i + 1

/-- State of `TdSeq`. -/
structure TdSeq where
  highs : List (Option ℚ)
  lows : List (Option ℚ)
  closes : List (Option ℚ)
  index : ℕ
  buy_setup_count : ℕ
  sell_setup_count : ℕ
  perfect : Bool
  support : ℚ
  resistance : ℚ
deriving DecidableEq

/-- Constructor `TdSeq::new`. -/
def TdSeq.new : TdSeq :=
  { highs := List.replicate 5 none
    lows := List.replicate 5 none
    closes := List.replicate 5 none
    index := 0
    buy_setup_count := 0
    sell_setup_count := 0
    perfect := false
    support := 0
    resistance := 0 }

/-- The branch condition `self.closes[prev_index] > self.closes[self.index]`
evaluated after the current candle has been written into the window. -/
def tdGoesDown (s : TdSeq) (close : ℚ) : Bool :=
  oGt ((s.closes.set s.index (some close)).getD (prevIdx s.index) none)
    ((s.closes.set s.index (some close)).getD s.index none)

/-- Perfect-flag formula of the `buy_setup_count == 9` block, on the lows
array after the current candle has been written. -/
def buyPerfectEval (lows : List (Option ℚ)) (pi i : ℕ) : Bool :=
  let sixth := lows.getD ((pi + 1) % 5) none
  let seventh := lows.getD ((pi + 2) % 5) none
  let eighth := lows.getD ((pi + 3) % 5) none
  let ninth := lows.getD i none
  (oLt eighth sixth && oLt eighth seventh) || (oLt ninth sixth && oLt ninth seventh)

/-- Perfect-flag formula of the `sell_setup_count == 9` block, on the highs
array after the current candle has been written. -/
def sellPerfectEval (highs : List (Option ℚ)) (pi i : ℕ) : Bool :=
  let sixth := highs.getD ((pi + 1) % 5) none
  let seventh := highs.getD ((pi + 2) % 5) none
  let eighth := highs.getD ((pi + 3) % 5) none
  let ninth := highs.getD i none
  (oGt eighth sixth && oGt eighth seventh) || (oGt ninth sixth && oGt ninth seventh)

/-- Warm-up branch of `TdSeq::next` (window slot still NaN and index not
yet 4): record the candle and advance the cursor. -/
def TdSeq.warm (s : TdSeq) (high low close : ℚ) : TdSeq :=
  { s with
    closes := s.closes.set s.index (some close)
    highs := s.highs.set s.index (some high)
    lows := s.lows.set s.index (some low)
    index := s.index + 1 }

/-- Main branch of `TdSeq::next`, written in field-assignment form.  Each
field records the final value of the corresponding imperative block:
counters first reset at exactly 9, then the branch on
`closes[prev_index] > closes[index]` increments one counter and zeroes the
other; `resistance`/`support` are reassigned only when the incremented
counter was zero (in the other arm the source computes
`self.resistance.max(..)` / `self.support.min(..)` and discards the
result, a no-op); the two nine-blocks are mutually exclusive because the
counter not incremented is zero, so nesting the second under the first's
else is equivalent to the sequential assignments of the source;
`self.highs[self.index]` (resp. lows) was just assigned `high` (`low`). -/
def TdSeq.step (s : TdSeq) (high low close : ℚ) : TdSeq :=
  { closes := s.closes.set s.index (some close)
    highs := s.highs.set s.index (some high)
    lows := s.lows.set s.index (some low)
    index := if s.index = 4 then 0 else s.index + 1
    buy_setup_count :=
      if tdGoesDown s close then
        (if s.buy_setup_count = 9 then 0 else s.buy_setup_count) + 1
      else 0
    sell_setup_count :=
      if tdGoesDown s close then 0
      else (if s.sell_setup_count = 9 then 0 else s.sell_setup_count) + 1
    perfect :=
      if (if tdGoesDown s close then
            (if s.buy_setup_count = 9 then 0 else s.buy_setup_count) + 1
          else 0) = 9 then
        buyPerfectEval (s.lows.set s.index (some low)) (prevIdx s.index) s.index
      else if (if tdGoesDown s close then 0
               else (if s.sell_setup_count = 9 then 0 else s.sell_setup_count) + 1) = 9 then
        sellPerfectEval (s.highs.set s.index (some high)) (prevIdx s.index) s.index
      else s.perfect
    support :=
      if tdGoesDown s close then s.support
      else if (if s.sell_setup_count = 9 then 0 else s.sell_setup_count) = 0 then low
      else s.support
    resistance :=
      if tdGoesDown s close then
        (if (if s.buy_setup_count = 9 then 0 else s.buy_setup_count) = 0 then high
         else s.resistance)
      else s.resistance }

/-- Transcription of `TdSeq::next`. -/
def TdSeq.next (s : TdSeq) (high low close : ℚ) : TdSeq :=
  if (s.closes.getD s.index none).isNone ∧ s.index ≠ 4 then s.warm high low close
  else s.step high low close

/-- Folding a candle feed (high, low, close) through `TdSeq::next` from
`TdSeq::new`. -/
def TdSeq.feed (feeds : List (ℚ × ℚ × ℚ)) : TdSeq :=
  feeds.foldl (fun s t => s.next t.1 t.2.1 t.2.2) TdSeq.new

/-! ## Field scanner (src/finder.rs)

Byte values: 34 quote, 44 comma, 58 colon, 91/93 square brackets,
123/125 braces.  A function result of `none` models a Rust panic. -/

/-- The `Value` kind selector of `Haystack::skip_value`. -/
inductive Value where
  | Object
  | Array
  | Other
deriving DecidableEq

/-- ASCII `is_ascii_alphanumeric`. -/
def isAlnum (b : ℕ) : Bool :=
  (48 ≤ b && b ≤ 57) || (65 ≤ b && b ≤ 90) || (97 ≤ b && b ≤ 122)

/-- Transcription of `Haystack::skip_object`: peek-driven loop counting
brace depth; when the buffer ends first the `while let` simply exits, so
the function always returns normally (hence no `Option`). -/
def skip_object : ℕ → List ℕ → List ℕ
  | _, [] => []
  | curly, b :: rest =>
    if b = 123 then skip_object (curly + 1) rest
    else if b = 125 then (if curly = 1 then rest else skip_object (curly - 1) rest)
    else skip_object curly rest

/-- Transcription of `Haystack::skip_array`: `self.next().unwrap()` panics
(`none`) when the buffer ends with brackets still open. -/
def skip_array : ℕ → List ℕ → Option (List ℕ)
  | 0, rest => some rest
  | _ + 1, [] => none
  | square + 1, b :: rest =>
    if b = 91 then skip_array (square + 2) rest
    else if b = 93 then skip_array square rest
    else skip_array (square + 1) rest

/-- Transcription of `Haystack::skip_other`: consumes up to and including
the next comma; at end of buffer the `while let` exits and the function
returns normally. -/
def skip_other : List ℕ → Option (List ℕ)
  | [] => some []
  | b :: rest => if b = 44 then some rest else skip_other rest

/-- Transcription of `Haystack::skip_value`. -/
def skip_value : Value → List ℕ → Option (List ℕ)
  | Value.Object, l => some (skip_object 1 l)
  | Value.Array, l => skip_array 1 l
  | Value.Other, l => skip_other l

/-- First phase of `find_key`'s `(None, None)` arm: scan to a double quote
and consume it; if the buffer ends first, the subsequent `peek` is `None`
and the source panics (`none`). -/
def dropToQuote : List ℕ → Option (List ℕ)
  | [] => none
  | b :: rest => if b = 34 then some rest else dropToQuote rest

/-- Key-reading phase of `find_key` (`index = Some i` arm): collect
alphanumeric bytes until the closing quote; a non-alphanumeric byte or
end of buffer panics. -/
def readKey : List ℕ → Option (List ℕ × List ℕ)
  | [] => none
  | b :: rest =>
    if b = 34 then some ([], rest)
    else if isAlnum b then
      match readKey rest with
      | some (k, r) => some (b :: k, r)
      | none => none
    else none

/-- Main loop of `Haystack::find_key`, with fuel (each iteration of the
source loop consumes at least one byte, so `length + 1` fuel in `find_key`
below is enough).  After a non-matching key the source expects a colon,
dispatches on the next byte to the matching skip, and loops. -/
def findKeyLoop (target : List ℕ) : ℕ → List ℕ → Option (List ℕ)
  | 0, _ => none
  | fuel + 1, input =>
    match dropToQuote input with
    | none => none
    | some afterQuote =>
      match afterQuote with
      | [] => none
      | b :: _ =>
        if ¬ isAlnum b then none
        else
          match readKey afterQuote with
          | none => none
          | some (k, rest) =>
            if k = target then some rest
            else
              match rest with
              | [] => none
              | c :: rest2 =>
                if c = 58 then
                  match rest2 with
                  | [] => none
                  | v :: rest3 =>
                    match
                      (if v = 91 then skip_array 1 rest3
                       else if v = 123 then some (skip_object 1 rest3)
                       else skip_other rest3) with
                    | none => none
                    | some rest4 => findKeyLoop target fuel rest4
                else none

/-- Transcription of `Haystack::find_key` over a whole buffer. -/
def find_key (target : List ℕ) (input : List ℕ) : Option (List ℕ) :=
  findKeyLoop target (input.length + 1) input

/-! ## Rolling maximum / minimum (src/indicators.rs, structs Maximum and Minimum)

`Maximum` initialises its buffer with `f64::MIN`, a sentinel that loses
every comparison against a fed price; it is modelled as `⊥` of
`WithBot α`.  The structure and its operations are written over an
arbitrary linear order so that `Minimum` — whose code is the exact dual,
with sentinel `f64::MAX`, comparison `price < values[min_index]` and a
rescan keeping the strictly smaller value — is the same program read in
the dual order `ℚᵒᵈ`. -/

/-- State of `Maximum` (and, at `α = ℚᵒᵈ`, of `Minimum`). -/
structure Maximum (α : Type) where
  period : ℕ
  max_index : ℕ
  cur_index : ℕ
  values : List (WithBot α)

/-- Constructor `Maximum::new`: buffer full of the sentinel. -/
def Maximum.new (α : Type) [LinearOrder α] (period : ℕ) : Maximum α :=
  { period := period, max_index := 0, cur_index := 0,
    values := List.replicate period ⊥ }

/-- Transcription of the scan in `Maximum::find_max_index`: running best
value starts at the sentinel and the position updates on strict
improvement, returning the first position of the array maximum. -/
def findMaxAux {α : Type} [LinearOrder α] :
    List (WithBot α) → ℕ → WithBot α → ℕ → ℕ
  | [], _, _, idx => idx
  | v :: rest, i, m, idx =>
    if m < v then findMaxAux rest (i + 1) v i else findMaxAux rest (i + 1) m idx

/-- Transcription of `Maximum::next`. -/
def Maximum.next {α : Type} [LinearOrder α] (s : Maximum α) (price : α) : Maximum α :=
  let values := s.values.set s.cur_index (↑price)
  { period := s.period
    max_index :=
      if (↑price : WithBot α) > values.getD s.max_index ⊥ then s.cur_index
      else if s.max_index = s.cur_index then findMaxAux values 0 ⊥ 0
      else s.max_index
    cur_index := if s.cur_index + 1 < s.period then s.cur_index + 1 else 0
    values := values }

/-- Accessor `Maximum::get` (`self.values.get(self.max_index).copied()`). -/
def Maximum.get {α : Type} (s : Maximum α) : Option (WithBot α) :=
  s.values.get? s.max_index

/-- Feeding a sample list through `Maximum::next` from `Maximum::new`. -/
def Maximum.feed (α : Type) [LinearOrder α] (P : ℕ) (xs : List α) : Maximum α :=
  xs.foldl Maximum.next (Maximum.new α P)

/-- State of `Minimum`: the `Maximum` program read in the dual order
(sentinel `f64::MAX` is the dual bottom, `price < values[min_index]`
is the dual of the strict greater-than test, and `find_max_index`
of `Minimum` keeps the strictly smaller value). -/
def Minimum : Type := Maximum ℚᵒᵈ

/-- Constructor `Minimum::new`. -/
def Minimum.new (period : ℕ) : Minimum :=
  Maximum.new ℚᵒᵈ period

/-- Transcription of `Minimum::next` via the dual order. -/
def Minimum.next (s : Minimum) (price : ℚ) : Minimum :=
  Maximum.next s (OrderDual.toDual price)

/-- Accessor `Minimum::get`. -/
def Minimum.get (s : Minimum) : Option (WithBot ℚᵒᵈ) :=
  Maximum.get s

/-- Feeding a sample list through `Minimum::next` from `Minimum::new`. -/
def Minimum.feed (P : ℕ) (xs : List ℚ) : Minimum :=
  xs.foldl Minimum.next (Minimum.new P)

/-- Maximum of a buffer, the value the tracked index is meant to point
at. -/
def listMax {α : Type} [LinearOrder α] (l : List (WithBot α)) : WithBot α :=
  l.foldl max ⊥

/-- Structural invariant of the rolling extremum: indices in range, the
buffer sized to the period, and the tracked slot holding the buffer
maximum. -/
def MaxInv {α : Type} [LinearOrder α] (s : Maximum α) : Prop :=
  s.max_index < s.period ∧ s.cur_index < s.period ∧
  s.values.length = s.period ∧
  s.values.getD s.max_index ⊥ = listMax s.values

/-- The buffer slot a sample position was written to, as a value:
the sample when in range, the sentinel otherwise. -/
def entryOf {α : Type} (xs : List α) (m : ℕ) : WithBot α :=
  match xs.get? m with
  | some q => (q : WithBot α)
  | none => ⊥

/-- Contents invariant of the rolling extremum after feeding `xs` with
period `P`: the cursor is the feed count modulo `P`, each of the last
`min P (length xs)` samples sits in its slot, and every slot is either
the sentinel or the slot of one of those samples. -/
def ContInv {α : Type} [LinearOrder α] (P : ℕ) (xs : List α) (s : Maximum α) : Prop :=
  s.period = P ∧ s.cur_index = xs.length % P ∧
  (∀ m : ℕ, xs.length - P ≤ m → m < xs.length →
    s.values.getD (m % P) ⊥ = entryOf xs m) ∧
  (∀ i : ℕ, i < P →
    s.values.getD i ⊥ = ⊥ ∨ ∃ m : ℕ, xs.length - P ≤ m ∧ m < xs.length ∧ m % P = i)

/-! ## Kline body parser (src/exchange/binance.rs, fn parse_kline_body)

Byte values: 34 quote, 44 comma, 46 dot, 48..57 digits, 91/93 square
brackets.  `str::parse::<f64>` on the digit-and-dot tokens produced by the
exchange is modelled exactly in `ℚ`; `parse::<i64>` on a digit token is
its numeral value; `Utc.timestamp_millis` keeps that integer. -/

/-- Rust `u8::is_ascii_digit`. -/
def isDigitByte (b : ℕ) : Bool :=
  48 ≤ b && b ≤ 57

/-- Value of a decimal digit token (`str::parse` on digits). -/
def natOfDigits (l : List ℕ) : ℕ :=
  l.foldl (fun acc b => 10 * acc + (b - 48)) 0

/-- Decimal rendering of a natural number as ASCII digit bytes. -/
def natToDigits (n : ℕ) : List ℕ :=
  if n < 10 then [48 + n] else natToDigits (n / 10) ++ [48 + n % 10]
decreasing_by exact Nat.div_lt_self (by omega) (by norm_num)

/-- Splitting a token at its first dot (byte 46), as `str::parse::<f64>`
sees an integer part and a fractional part. -/
def splitDot : List ℕ → List ℕ × List ℕ
  | [] => ([], [])
  | b :: rest =>
    if b = 46 then ([], rest)
    else ((splitDot rest).1.cons b, (splitDot rest).2)

/-- Exact value of a decimal token, modelling `str::parse::<f64>` on the
literal tokens of the payload. -/
def parseDec (l : List ℕ) : ℚ :=
  (natOfDigits (splitDot l).1 : ℚ) +
    (natOfDigits (splitDot l).2 : ℚ) / 10 ^ (splitDot l).2.length

/-- A decimal numeral token with a fixed count of fractional digits:
`mantissa` scaled down by `10 ^ fracDigits`.  This is the exchange's
literal price format (e.g. mantissa 3351805, 2 fractional digits is the
token "33518.05"). -/
structure DecTok where
  mantissa : ℕ
  fracDigits : ℕ

/-- Numeric value of a decimal token. -/
def DecTok.val (d : DecTok) : ℚ :=
  (d.mantissa : ℚ) / 10 ^ d.fracDigits

/-- Digit bytes of the fractional part, zero-padded to width `k`. -/
def padDigits (k n : ℕ) : List ℕ :=
  List.replicate (k - (natToDigits n).length) 48 ++ natToDigits n

/-- Literal byte rendering of a decimal token. -/
def DecTok.render (d : DecTok) : List ℕ :=
  if d.fracDigits = 0 then natToDigits d.mantissa
  else
    natToDigits (d.mantissa / 10 ^ d.fracDigits) ++
      46 :: padDigits d.fracDigits (d.mantissa % 10 ^ d.fracDigits)

/-- Column-oriented output of `parse_kline_body` (struct `Klines`; `open`
is a Lean keyword, hence the field name `opn`). -/
structure Klines where
  open_time : List ℤ
  opn : List ℚ
  high : List ℚ
  low : List ℚ
  close : List ℚ
  volume : List ℚ
  close_time : List ℤ
  qav : List ℚ
  trades : List ℕ
  tbbav : List ℚ
  tbqav : List ℚ

/-- The empty column set. -/
def Klines.empty : Klines :=
  { open_time := [], opn := [], high := [], low := [], close := [],
    volume := [], close_time := [], qav := [], trades := [],
    tbbav := [], tbqav := [] }

/-- The `match index` block of `parse_kline_body`: push the parsed token
into the column selected by the running field index. -/
def Klines.pushAt (k : Klines) (index : ℕ) (tmp : List ℕ) : Klines :=
  match index with
  | 0 => { k with open_time := k.open_time ++ [(natOfDigits tmp : ℤ)] }
  | 1 => { k with opn := k.opn ++ [parseDec tmp] }
  | 2 => { k with high := k.high ++ [parseDec tmp] }
  | 3 => { k with low := k.low ++ [parseDec tmp] }
  | 4 => { k with close := k.close ++ [parseDec tmp] }
  | 5 => { k with volume := k.volume ++ [parseDec tmp] }
  | 6 => { k with close_time := k.close_time ++ [(natOfDigits tmp : ℤ)] }
  | 7 => { k with qav := k.qav ++ [parseDec tmp] }
  | 8 => { k with trades := k.trades ++ [natOfDigits tmp] }
  | 9 => { k with tbbav := k.tbbav ++ [parseDec tmp] }
  | 10 => { k with tbqav := k.tbqav ++ [parseDec tmp] }
  | _ => k

/-- Loop state of `parse_kline_body`. -/
structure ParseSt where
  found_open_bracket : Bool
  found_body : Bool
  index : ℕ
  tmp : List ℕ
  out : Klines

/-- Per-byte body of the `parse_kline_body` loop, in source order: the
bracket flags first (the close-bracket arm also resets `index`; the
commented-out `tmp_bytes.clear()` of the source is likewise absent here),
then the body-start detection, then accumulation of digit/dot bytes while
`index <= 10`, or a comma committing the token. -/
def pkStep (s : ParseSt) (b : ℕ) : ParseSt :=
  let s1 :=
    if b = 91 then { s with found_open_bracket := true }
    else if b = 93 ∧ s.found_body then
      { s with found_open_bracket := false, found_body := false, index := 0 }
    else s
  let s2 :=
    if ¬s1.found_body ∧ s1.found_open_bracket ∧ isDigitByte b then
      { s1 with found_body := true }
    else s1
  if s2.found_body then
    if (isDigitByte b ∨ b = 46) ∧ s2.index ≤ 10 then
      { s2 with tmp := s2.tmp ++ [b] }
    else if b = 44 then
      { s2 with out := s2.out.pushAt s2.index s2.tmp, tmp := [], index := s2.index + 1 }
    else s2
  else s2

/-- Transcription of `parse_kline_body` (the `data_count` argument of the
source only pre-sizes the vectors). -/
def parse_kline_body (bytes : List ℕ) : Klines :=
  (bytes.foldl pkStep
    { found_open_bracket := false, found_body := false, index := 0,
      tmp := [], out := Klines.empty }).out

/-- One candle of a column-oriented series, with the literal tokens the
exchange would serialise for it. -/
structure KRow where
  open_time : ℕ
  opn : DecTok
  high : DecTok
  low : DecTok
  close : DecTok
  volume : DecTok
  close_time : ℕ
  qav : DecTok
  trades : ℕ
  tbbav : DecTok
  tbqav : DecTok

/-- A quoted token, as the exchange serialises price strings. -/
def quoteTok (t : List ℕ) : List ℕ :=
  34 :: t ++ [34]

/-- Modelled from the spec: the exchange's nested-numeric-array text form
of a single candle — a 12-element array of the open time, the eight
quoted decimal fields, the close time and trade count, and the trailing
ignored "0" string, with the same literal number tokens. -/
def encodeRow (r : KRow) : List ℕ :=
  91 :: natToDigits r.open_time ++
    44 :: quoteTok r.opn.render ++
    44 :: quoteTok r.high.render ++
    44 :: quoteTok r.low.render ++
    44 :: quoteTok r.close.render ++
    44 :: quoteTok r.volume.render ++
    44 :: natToDigits r.close_time ++
    44 :: quoteTok r.qav.render ++
    44 :: natToDigits r.trades ++
    44 :: quoteTok r.tbbav.render ++
    44 :: quoteTok r.tbqav.render ++
    44 :: quoteTok [48] ++ [93]

/-- Comma-separated concatenation of encoded rows. -/
def joinRows : List KRow → List ℕ
  | [] => []
  | [r] => encodeRow r
  | r :: rest => encodeRow r ++ 44 :: joinRows rest

/-- Modelled from the spec: the exchange's response body, an array of
per-candle arrays. -/
def encodeKlines (rows : List KRow) : List ℕ :=
  91 :: joinRows rows ++ [93]

/-- The columns one parsed row appends: the numeric values of the row's
literal tokens. -/
def pushRow (out : Klines) (r : KRow) : Klines :=
  { open_time := out.open_time ++ [(r.open_time : ℤ)]
    opn := out.opn ++ [r.opn.val]
    high := out.high ++ [r.high.val]
    low := out.low ++ [r.low.val]
    close := out.close ++ [r.close.val]
    volume := out.volume ++ [r.volume.val]
    close_time := out.close_time ++ [(r.close_time : ℤ)]
    qav := out.qav ++ [r.qav.val]
    trades := out.trades ++ [r.trades]
    tbbav := out.tbbav ++ [r.tbbav.val]
    tbqav := out.tbqav ++ [r.tbqav.val] }

/-- Reachable-state invariant of the sequence-pattern counter: the cursor
stays in the window, the window has five slots, both counters stay at
most 9, and the state is either still warming (both counters zero, the
slots below the cursor exactly the written ones) or fully windowed. -/
def TdSeqInv (s : TdSeq) : Prop :=
  s.index ≤ 4 ∧ s.closes.length = 5 ∧
  s.buy_setup_count ≤ 9 ∧ s.sell_setup_count ≤ 9 ∧
  ((s.buy_setup_count = 0 ∧ s.sell_setup_count = 0 ∧
      ∀ i : ℕ, i < 5 → ((s.closes.getD i none).isSome ↔ i < s.index)) ∨
    ∀ i : ℕ, i < 5 → (s.closes.getD i none).isSome)

/-! ## List helper lemmas -/

/-- Reading inside a replicate block. -/
theorem getD_replicate_of_lt {α : Type} (a d : α) {n i : ℕ} (h : i < n) :
    (List.replicate n a).getD i d = a := by
  induction n generalizing i with
  | zero => omega
  | succ n ih =>
    cases i with
    | zero => rfl
    | succ i => simpa [List.replicate_succ] using ih (by omega)

/-- Reading the first slot after a replicate block. -/
theorem getD_replicate_append {α : Type} (a b d : α) (l : List α) (k : ℕ) :
    (List.replicate k a ++ b :: l).getD k d = b := by
  induction k with
  | zero => rfl
  | succ k ih => simpa [List.replicate_succ] using ih

/-- Writing the slot right after a replicate block. -/
theorem set_after_replicate {α : Type} (a b c : α) (l : List α) (k : ℕ) :
    (List.replicate k a ++ b :: l).set k c = List.replicate k a ++ c :: l := by
  induction k with
  | zero => rfl
  | succ k ih => simp [List.replicate_succ, ih]

/-- Absorbing a matching head element into a replicate block. -/
theorem replicate_append_cons {α : Type} (a : α) (l : List α) (k : ℕ) :
    List.replicate k a ++ a :: l = List.replicate (k + 1) a ++ l := by
  induction k with
  | zero => rfl
  | succ k ih => simpa [List.replicate_succ] using ih

/-- Rewriting a replicate slot with the same value is the identity. -/
theorem set_replicate_self {α : Type} (a : α) (n i : ℕ) :
    (List.replicate n a).set i a = List.replicate n a := by
  induction n generalizing i with
  | zero => rfl
  | succ n ih => cases i <;> simp [List.replicate_succ, ih]

/-- Reading back the slot just written. -/
theorem getD_set_self {α : Type} (l : List α) (i : ℕ) (a d : α) :
    (l.set i a).getD i d = if i < l.length then a else d := by
  induction l generalizing i with
  | nil => simp
  | cons x xs ih =>
    cases i with
    | zero => simp
    | succ i =>
      rw [List.set_cons_succ, List.getD_cons_succ, ih i]
      simp [Nat.succ_lt_succ_iff]

/-- Reading a slot other than the one just written. -/
theorem getD_set_ne {α : Type} (l : List α) {i j : ℕ} (h : i ≠ j) (a d : α) :
    (l.set i a).getD j d = l.getD j d := by
  induction l generalizing i j with
  | nil => simp
  | cons x xs ih =>
    cases i with
    | zero =>
      cases j with
      | zero => omega
      | succ j => simp
    | succ i =>
      cases j with
      | zero => simp
      | succ j => simpa using ih (by omega)

/-! ## C8: interval-to-milliseconds constants -/

/-- C8: for every interval, `to_millis` converts m minutes to m·60000 ms,
h hours to h·3600000 ms, d days to d·86400000 ms, a week to 604800000 ms,
and a month to 30 hours = 108000000 ms. -/
theorem interval_to_millis_constants :
    (∀ m : ℤ, (Exchange.Interval.Minute m).to_millis = m * 60000) ∧
    (∀ h : ℤ, (Exchange.Interval.Hour h).to_millis = h * 3600000) ∧
    (∀ d : ℤ, (Exchange.Interval.Day d).to_millis = d * 86400000) ∧
    Exchange.Interval.Week.to_millis = 604800000 ∧
    Exchange.Interval.Month.to_millis = 108000000 := by
  refine ⟨fun m => ?_, fun h => ?_, fun d => ?_, rfl, rfl⟩ <;>
    simp only [Exchange.Interval.to_millis] <;> ring

/-! ## C1: DipEntry-to-Flat sell rule -/

/-- C1 counterexample: with basis 10, upper band 20, close 15, held base 1
and entry quote 1, the claimed sell condition holds (the close recovered
above the basis with non-negative net return), yet the live engine does
not emit Sell — its sell decision tests the upper band alone. -/
theorem live_sell_ignores_basis_recovery :
    spec_dip_sell 10 20 15 1 1 = true ∧ live_sell 10 20 15 1 1 = false := by
  constructor <;> norm_num [spec_dip_sell, live_sell]

/-- C1 amended: for a position entered via dip entry (uptrend flag unset),
the backtest engine emits Sell exactly under the claimed rule — close
recovered above the basis with non-negative net return, or close above
the upper band — while the live engine emits Sell exactly when the close
exceeds the upper band. -/
theorem dip_sell_rule_by_mode (mean bb_upper close base net : ℚ) :
    backtest_sell mean bb_upper close base net false
      = spec_dip_sell mean bb_upper close base net ∧
    live_sell mean bb_upper close base net = decide (close > bb_upper) := by
  exact ⟨by simp [backtest_sell, spec_dip_sell], rfl⟩

/-! ## C5: moving average on a constant feed -/

/-- Buffer sum of a fully written constant buffer. -/
theorem optSum_replicate_some (n : ℕ) (v : ℚ) :
    optSum (List.replicate n (some v)) = n * v := by
  induction n with
  | zero => simp [optSum]
  | succ n ih =>
    simp only [List.replicate_succ, optSum, List.map_cons, List.sum_cons,
      Option.getD_some] at *
    rw [ih]
    push_cast
    ring

/-- State of the constant-fed Sma during warm-up: the first `k` slots are
written, the cursor is at `k` and no value is cached. -/
theorem sma_feedConst_warm (N : ℕ) (v : ℚ) (k : ℕ) (h : k < N) :
    Sma.feedConst N v k =
      { period := N, data := List.replicate k (some v) ++ List.replicate (N - k) none,
        index := k, value := none } := by
  induction k with
  | zero => simp [Sma.feedConst, Sma.new]
  | succ k ih =>
    have hk : k < N := by omega
    rw [Sma.feedConst, ih hk]
    have hrep : List.replicate (N - k) (none : Option ℚ)
        = none :: List.replicate (N - (k + 1)) none := by
      have hs : N - k = (N - (k + 1)) + 1 := by omega
      rw [hs, List.replicate_succ]
    rw [Sma.next]
    simp only [hrep, getD_replicate_append, Option.isNone_none, if_true]
    have hidx : k < N - 1 := by omega
    simp only [if_pos hidx]
    rw [set_after_replicate, replicate_append_cons]

/-- State of the constant-fed Sma once the buffer has cycled: all slots
hold the constant and the cached value is the constant. -/
theorem sma_feedConst_full (N : ℕ) (hN : 1 ≤ N) (v : ℚ) (k : ℕ) (h : N ≤ k) :
    ∃ i, i < N ∧ Sma.feedConst N v k =
      { period := N, data := List.replicate N (some v), index := i, value := some v } := by
  induction k with
  | zero => omega
  | succ k ih =>
    rcases Nat.lt_or_ge k N with hk | hk
    · -- the seeding feed: k = N - 1
      refine ⟨0, by omega, ?_⟩
      rw [Sma.feedConst, sma_feedConst_warm N v k hk]
      have hrep : List.replicate (N - k) (none : Option ℚ)
          = none :: List.replicate 0 none := by
        have hs : N - k = 1 := by omega
        rw [hs]
        rfl
      rw [Sma.next]
      simp only [hrep, getD_replicate_append, Option.isNone_none, if_true]
      have hidx : ¬ k < N - 1 := by omega
      simp only [if_neg hidx]
      rw [set_after_replicate, replicate_append_cons]
      have hk1 : k + 1 = N := by omega
      rw [hk1]
      simp only [List.replicate, List.append_nil, optSum_replicate_some]
      have hN0 : (N : ℚ) ≠ 0 := Nat.cast_ne_zero.mpr (by omega)
      have hval : (N : ℚ) * v / N = v := by field_simp
      rw [hval]
    · obtain ⟨i, hi, hstate⟩ := ih hk
      rw [Sma.feedConst, hstate]
      rw [Sma.next]
      have hget : (List.replicate N (some v)).getD i none = some v :=
        getD_replicate_of_lt _ _ hi
      simp only [hget, Option.isNone_some, Bool.false_eq_true, if_false]
      rw [set_replicate_self, optSum_replicate_some]
      have hN0 : (N : ℚ) ≠ 0 := Nat.cast_ne_zero.mpr (by omega)
      have hval : (N : ℚ) * v / N = v := by field_simp
      by_cases hc : i < N - 1
      · exact ⟨i + 1, by omega, by simp only [if_pos hc, hval]⟩
      · exact ⟨0, by omega, by simp only [if_neg hc, hval]⟩

/-- C5: a moving average of period N ≥ 1 fed the constant v on every feed
is unavailable after each of the first N-1 feeds and available with value
v after the N-th and every subsequent feed. -/
theorem sma_constant_warmup_and_value (N : ℕ) (hN : 1 ≤ N) (v : ℚ) (k : ℕ) :
    (k < N → (Sma.feedConst N v k).get = none) ∧
    (N ≤ k → (Sma.feedConst N v k).get = some v) := by
  constructor
  · intro h
    rw [sma_feedConst_warm N v k h]
    rfl
  · intro h
    obtain ⟨i, _, hs⟩ := sma_feedConst_full N hN v k h
    rw [hs]
    rfl

/-- Witness for C5 at period 3 and constant 5: unavailable after 2 feeds,
available with value 5 after 7 feeds. -/
theorem sma_constant_warmup_and_value_witness :
    (Sma.feedConst 3 5 2).get = none ∧ (Sma.feedConst 3 5 7).get = some 5 :=
  ⟨(sma_constant_warmup_and_value 3 (by omega) 5 2).1 (by omega),
   (sma_constant_warmup_and_value 3 (by omega) 5 7).2 (by omega)⟩

/-! ## C10: availability is monotone -/

/-- Ema availability is preserved by one step. -/
theorem ema_isSome_step (e : Ema) (x : ℚ) (h : e.get.isSome) :
    ((e.next x).get).isSome := by
  unfold Ema.next Ema.get at *
  split
  · exact h
  · split
    · rfl
    · rfl

/-- Atr availability is preserved by one step. -/
theorem atr_isSome_step (a : Atr) (hi cp lo : ℚ) (h : a.get.isSome) :
    ((a.next hi cp lo).get).isSome := by
  unfold Atr.next Atr.get at *
  split
  · exact h
  · split
    · rfl
    · rfl

/-- The first component of `Adx::get` is the cached value field. -/
theorem adx_get_fst (a : Adx) : a.get.1 = a.value := by
  unfold Adx.get
  rcases a.spdm.get with _ | p <;> rcases a.smdm.get with _ | m <;>
    rcases a.atr.get with _ | t <;> rfl

/-- The +DI component of `Adx::get` is available exactly when the three
inner indicators are. -/
theorem adx_get_pdi_isSome (a : Adx) :
    a.get.2.1.isSome
      ↔ (a.spdm.get.isSome ∧ a.smdm.get.isSome ∧ a.atr.get.isSome) := by
  unfold Adx.get
  rcases a.spdm.get with _ | p <;> rcases a.smdm.get with _ | m <;>
    rcases a.atr.get with _ | t <;> simp

/-- The -DI component of `Adx::get` is available exactly when the three
inner indicators are. -/
theorem adx_get_mdi_isSome (a : Adx) :
    a.get.2.2.isSome
      ↔ (a.spdm.get.isSome ∧ a.smdm.get.isSome ∧ a.atr.get.isSome) := by
  unfold Adx.get
  rcases a.spdm.get with _ | p <;> rcases a.smdm.get with _ | m <;>
    rcases a.atr.get with _ | t <;> simp

/-- Components of the Adx state after one step. -/
theorem adx_next_spdm (a : Adx) (h hp l lp cp : ℚ) :
    ((a.next h hp l lp cp).spdm = a.spdm.next
      (if h - hp > lp - l ∧ 0 ≤ h - hp then h - hp else 0)) ∧
    ((a.next h hp l lp cp).smdm = a.smdm.next
      (if h - hp < lp - l ∧ 0 ≤ lp - l then lp - l else 0)) ∧
    ((a.next h hp l lp cp).atr = a.atr.next h cp l) :=
  ⟨rfl, rfl, rfl⟩

/-- The cached value after an Adx step: refreshed from the new dx when
available, kept otherwise. -/
theorem adx_next_value (a : Adx) (h hp l lp cp : ℚ) :
    (a.next h hp l lp cp).value =
      match (a.next h hp l lp cp).dx.get with
      | some d => some d
      | none => a.value :=
  rfl

/-- C10: indicator availability is monotone for the moving average, the
exponential average, the average true range and all three components of
the directional-movement composite: one further feed never turns an
available value back into an unavailable one. -/
theorem availability_monotone :
    (∀ (s : Sma) (x : ℚ), s.get.isSome → ((s.next x).get).isSome) ∧
    (∀ (e : Ema) (x : ℚ), e.get.isSome → ((e.next x).get).isSome) ∧
    (∀ (a : Atr) (hi cp lo : ℚ), a.get.isSome → ((a.next hi cp lo).get).isSome) ∧
    (∀ (a : Adx) (h hp l lp cp : ℚ),
      (a.get.1.isSome → ((a.next h hp l lp cp).get).1.isSome) ∧
      (a.get.2.1.isSome → ((a.next h hp l lp cp).get).2.1.isSome) ∧
      (a.get.2.2.isSome → ((a.next h hp l lp cp).get).2.2.isSome)) := by
  refine ⟨?_, ema_isSome_step, atr_isSome_step, ?_⟩
  · intro s x h
    unfold Sma.next Sma.get at *
    split
    · split
      · exact h
      · rfl
    · split
      · rfl
      · rfl
  · intro a h hp l lp cp
    obtain ⟨hsp, hsm, hat⟩ := adx_next_spdm a h hp l lp cp
    refine ⟨?_, ?_, ?_⟩
    · intro hv
      rw [adx_get_fst] at hv
      rw [adx_get_fst, adx_next_value]
      rcases hdx : (a.next h hp l lp cp).dx.get with _ | d
      · exact hv
      · rfl
    · intro hv
      rw [adx_get_pdi_isSome] at hv
      rw [adx_get_pdi_isSome, hsp, hsm, hat]
      exact ⟨ema_isSome_step _ _ hv.1, ema_isSome_step _ _ hv.2.1, atr_isSome_step _ _ _ _ hv.2.2⟩
    · intro hv
      rw [adx_get_mdi_isSome] at hv
      rw [adx_get_mdi_isSome, hsp, hsm, hat]
      exact ⟨ema_isSome_step _ _ hv.1, ema_isSome_step _ _ hv.2.1, atr_isSome_step _ _ _ _ hv.2.2⟩

/-- Witness for C10: each of the four indicators, seeded with period 1 by
one (for Adx, one composite) feed, stays available after a further
feed. -/
theorem availability_monotone_witness :
    (((Sma.feedConst 1 2 1).next 3).get).isSome ∧
    ((((Ema.new 1).next 2).next 3).get).isSome ∧
    ((((Atr.new 1).next 3 2 1).next 4 3 2).get).isSome ∧
    ((((Adx.new 1).next 1 1 1 1 1).next 2 1 1 1 1).get).1.isSome ∧
    ((((Adx.new 1).next 1 1 1 1 1).next 2 1 1 1 1).get).2.1.isSome ∧
    ((((Adx.new 1).next 1 1 1 1 1).next 2 1 1 1 1).get).2.2.isSome :=
  ⟨availability_monotone.1 (Sma.feedConst 1 2 1) 3 (by decide),
   availability_monotone.2.1 ((Ema.new 1).next 2) 3 (by decide),
   availability_monotone.2.2.1 ((Atr.new 1).next 3 2 1) 4 3 2 (by decide),
   (availability_monotone.2.2.2 ((Adx.new 1).next 1 1 1 1 1) 2 1 1 1 1).1 (by decide),
   (availability_monotone.2.2.2 ((Adx.new 1).next 1 1 1 1 1) 2 1 1 1 1).2.1 (by decide),
   (availability_monotone.2.2.2 ((Adx.new 1).next 1 1 1 1 1) 2 1 1 1 1).2.2 (by decide)⟩

/-! ## C2, C6, C9: the sequence-pattern counter -/

/-- The counters after a full-window update, read off `TdSeq.step`. -/
theorem tdseq_step_buy (s : TdSeq) (h l c : ℚ) :
    (s.step h l c).buy_setup_count =
      if tdGoesDown s c then (if s.buy_setup_count = 9 then 0 else s.buy_setup_count) + 1
      else 0 :=
  rfl

/-- The sell counter after a full-window update. -/
theorem tdseq_step_sell (s : TdSeq) (h l c : ℚ) :
    (s.step h l c).sell_setup_count =
      if tdGoesDown s c then 0
      else (if s.sell_setup_count = 9 then 0 else s.sell_setup_count) + 1 :=
  rfl

/-- The perfect flag after a full-window update: evaluated from the
freshly written window exactly when a counter reaches 9, kept otherwise. -/
theorem tdseq_step_perfect (s : TdSeq) (h l c : ℚ) :
    (s.step h l c).perfect =
      if (s.step h l c).buy_setup_count = 9 then
        buyPerfectEval (s.lows.set s.index (some l)) (prevIdx s.index) s.index
      else if (s.step h l c).sell_setup_count = 9 then
        sellPerfectEval (s.highs.set s.index (some h)) (prevIdx s.index) s.index
      else s.perfect :=
  rfl

/-- C2 counterexample: after four identical warm-up candles, a fifth
candle whose close ties the close four bars prior advances the sell-setup
counter (and leaves the buy-setup counter at zero), while a fifth candle
strictly below advances the buy-setup counter: a tie does not advance the
same setup counter as a strictly-below feed. -/
theorem tdseq_tie_vs_down_counters :
    (TdSeq.feed [(10, 10, 10), (10, 10, 10), (10, 10, 10), (10, 10, 10),
        (10, 10, 10)]).sell_setup_count = 1 ∧
    (TdSeq.feed [(10, 10, 10), (10, 10, 10), (10, 10, 10), (10, 10, 10),
        (10, 10, 10)]).buy_setup_count = 0 ∧
    (TdSeq.feed [(10, 10, 10), (10, 10, 10), (10, 10, 10), (10, 10, 10),
        (9, 9, 9)]).buy_setup_count = 1 ∧
    (TdSeq.feed [(10, 10, 10), (10, 10, 10), (10, 10, 10), (10, 10, 10),
        (9, 9, 9)]).sell_setup_count = 0 := by
  refine ⟨?_, ?_, ?_, ?_⟩ <;> decide

/-- C2 amended: the comparison is strict, and a tie falls into the
sell-setup ("up") branch: in the full-window update, any feed whose close
is not strictly below the close four bars prior — equality included —
advances the sell-setup counter and zeroes the buy-setup counter, exactly
as a strictly-above feed does. -/
theorem tdseq_tie_advances_sell_branch (s : TdSeq) (h l c p : ℚ)
    (hbranch : ¬((s.closes.getD s.index none).isNone ∧ s.index ≠ 4))
    (hprev : (s.closes.set s.index (some c)).getD (prevIdx s.index) none = some p)
    (htie : p ≤ c) :
    (s.next h l c).sell_setup_count
      = (if s.sell_setup_count = 9 then 0 else s.sell_setup_count) + 1 ∧
    (s.next h l c).buy_setup_count = 0 := by
  have hdown : tdGoesDown s c = false := by
    unfold tdGoesDown
    rw [hprev, getD_set_self]
    by_cases hlen : s.index < s.closes.length
    · rw [if_pos hlen]
      unfold oGt
      simp [not_lt.mpr htie]
    · rw [if_neg hlen]
      rfl
  rw [TdSeq.next, if_neg hbranch]
  rw [tdseq_step_sell, tdseq_step_buy, hdown]
  simp

/-- Witness for C2's amended theorem: four warm-up candles at close 10,
then a tying fifth candle, advance the sell-setup counter to 1 and leave
the buy-setup counter at 0. -/
theorem tdseq_tie_advances_sell_branch_witness :
    ((TdSeq.feed [(10, 10, 10), (10, 10, 10), (10, 10, 10), (10, 10, 10)]).next
        10 10 10).sell_setup_count = 1 ∧
    ((TdSeq.feed [(10, 10, 10), (10, 10, 10), (10, 10, 10), (10, 10, 10)]).next
        10 10 10).buy_setup_count = 0 := by
  have hstep := tdseq_tie_advances_sell_branch
    (TdSeq.feed [(10, 10, 10), (10, 10, 10), (10, 10, 10), (10, 10, 10)])
    10 10 10 10 (by decide) (by decide) (by decide)
  refine ⟨?_, hstep.2⟩
  rw [hstep.1]
  decide

/-- One step preserves mutual exclusion of the two setup counters. -/
theorem tdseq_mutex_step (s : TdSeq) (h l c : ℚ)
    (hs : s.buy_setup_count = 0 ∨ s.sell_setup_count = 0) :
    (s.next h l c).buy_setup_count = 0 ∨ (s.next h l c).sell_setup_count = 0 := by
  unfold TdSeq.next
  split
  · exact hs
  · cases hg : tdGoesDown s c
    · left
      rw [tdseq_step_buy, hg]
      rfl
    · right
      rw [tdseq_step_sell, hg]
      rfl

/-- Mutual exclusion of the two setup counters after any feed sequence. -/
theorem tdseq_feed_mutex (feeds : List (ℚ × ℚ × ℚ)) :
    (TdSeq.feed feeds).buy_setup_count = 0 ∨ (TdSeq.feed feeds).sell_setup_count = 0 := by
  have main : ∀ (lst : List (ℚ × ℚ × ℚ)) (s : TdSeq),
      (s.buy_setup_count = 0 ∨ s.sell_setup_count = 0) →
      ((lst.foldl (fun s t => s.next t.1 t.2.1 t.2.2) s).buy_setup_count = 0 ∨
        (lst.foldl (fun s t => s.next t.1 t.2.1 t.2.2) s).sell_setup_count = 0) := by
    intro lst
    induction lst with
    | nil => exact fun s hs => hs
    | cons x xs ih => exact fun s hs => ih _ (tdseq_mutex_step s x.1 x.2.1 x.2.2 hs)
  exact main feeds TdSeq.new (Or.inl rfl)

/-- Feeding one more candle is a `next` on the folded state. -/
theorem tdseq_feed_append (feeds : List (ℚ × ℚ × ℚ)) (h l c : ℚ) :
    TdSeq.feed (feeds ++ [(h, l, c)]) = (TdSeq.feed feeds).next h l c := by
  unfold TdSeq.feed
  rw [List.foldl_append]
  rfl

/-- C9: after every feed at most one of the two setup counters is
nonzero, and whenever a run advances on a further feed the opposite
counter is zero. -/
theorem tdseq_single_active_run (feeds : List (ℚ × ℚ × ℚ)) (h l c : ℚ) :
    ((TdSeq.feed feeds).buy_setup_count = 0 ∨ (TdSeq.feed feeds).sell_setup_count = 0) ∧
    (((TdSeq.feed feeds).next h l c).buy_setup_count ≠ 0 →
      ((TdSeq.feed feeds).next h l c).sell_setup_count = 0) ∧
    (((TdSeq.feed feeds).next h l c).sell_setup_count ≠ 0 →
      ((TdSeq.feed feeds).next h l c).buy_setup_count = 0) := by
  refine ⟨tdseq_feed_mutex feeds, ?_, ?_⟩ <;>
  · intro hne
    have hmx := tdseq_feed_mutex (feeds ++ [(h, l, c)])
    rw [tdseq_feed_append] at hmx
    tauto

/-- Witness for C9: after four warm-up candles and one down candle the
buy run is active; feeding a further down candle advances it and the
sell counter is zero. -/
theorem tdseq_single_active_run_witness :
    ((TdSeq.feed [(10, 10, 10), (10, 10, 10), (10, 10, 10), (10, 10, 10),
        (9, 9, 9)]).next 8 8 8).sell_setup_count = 0 :=
  (tdseq_single_active_run
    [(10, 10, 10), (10, 10, 10), (10, 10, 10), (10, 10, 10), (9, 9, 9)]
    8 8 8).2.1 (by decide)

/-- The initial state satisfies the invariant. -/
theorem tdseqInv_new : TdSeqInv TdSeq.new := by
  refine ⟨by decide, rfl, by decide, by decide, Or.inl ⟨rfl, rfl, fun i hi => ?_⟩⟩
  show ((List.replicate 5 none).getD i none).isSome ↔ i < 0
  rw [getD_replicate_of_lt none none hi]
  simp

/-- A warm-branch update is only reachable in the warming phase. -/
theorem tdseqInv_warm_phase (s : TdSeq) (hs : TdSeqInv s)
    (hcond : (s.closes.getD s.index none).isNone ∧ s.index ≠ 4) :
    s.buy_setup_count = 0 ∧ s.sell_setup_count = 0 ∧ s.index < 4 := by
  obtain ⟨hidx, hlen, _, _, hphase⟩ := hs
  obtain ⟨hnone, hne4⟩ := hcond
  rcases hphase with ⟨hb0, hs0, _⟩ | hall
  · exact ⟨hb0, hs0, by omega⟩
  · exfalso
    have hsome := hall s.index (by omega)
    rw [Option.isNone_iff_eq_none] at hnone
    rw [hnone] at hsome
    simp at hsome

/-- One step preserves the invariant. -/
theorem tdseqInv_step (s : TdSeq) (h l c : ℚ) (hs : TdSeqInv s) :
    TdSeqInv (s.next h l c) := by
  obtain ⟨hidx, hlen, hb9, hs9, hphase⟩ := hs
  unfold TdSeq.next
  split
  case isTrue hcond =>
    obtain ⟨hb0, hs0, hlt4⟩ := tdseqInv_warm_phase s ⟨hidx, hlen, hb9, hs9, hphase⟩ hcond
    rcases hphase with ⟨_, _, hpat⟩ | hall
    · refine ⟨?_, ?_, ?_, ?_, Or.inl ⟨hb0, hs0, fun i hi => ?_⟩⟩
      · show s.index + 1 ≤ 4
        omega
      · show (s.closes.set s.index (some c)).length = 5
        rw [List.length_set, hlen]
      · exact hb9
      · exact hs9
      · show ((s.closes.set s.index (some c)).getD i none).isSome ↔ i < s.index + 1
        by_cases hieq : i = s.index
        · subst hieq
          rw [getD_set_self, if_pos (by omega)]
          simp
        · rw [getD_set_ne _ (fun hh => hieq hh.symm)]
          rw [hpat i hi]
          omega
    · exfalso
      obtain ⟨hnone, _⟩ := hcond
      have hsome := hall s.index (by omega)
      rw [Option.isNone_iff_eq_none] at hnone
      rw [hnone] at hsome
      simp at hsome
  case isFalse hcond =>
    refine ⟨?_, ?_, ?_, ?_, Or.inr fun i hi => ?_⟩
    · show (if s.index = 4 then 0 else s.index + 1) ≤ 4
      split <;> omega
    · show (s.closes.set s.index (some c)).length = 5
      rw [List.length_set, hlen]
    · rw [tdseq_step_buy]
      split
      · split <;> omega
      · omega
    · rw [tdseq_step_sell]
      split
      · omega
      · split <;> omega
    · show ((s.closes.set s.index (some c)).getD i none).isSome
      by_cases hieq : i = s.index
      · subst hieq
        rw [getD_set_self, if_pos (by omega)]
        rfl
      · rw [getD_set_ne _ (fun hh => hieq hh.symm)]
        rcases hphase with ⟨_, _, hpat⟩ | hall
        · -- warming phase refused the warm branch: the cursor slot is
          -- written, which forces index = 4 and all lower slots written
          have hItsome : ¬ (s.closes.getD s.index none).isNone ∨ s.index = 4 := by
            by_contra hcon
            push_neg at hcon
            exact hcond ⟨hcon.1, hcon.2⟩
          have hix4 : s.index = 4 := by
            rcases hItsome with hsome | h4
            · have := hpat s.index (by omega)
              rcases hx : s.closes.getD s.index none with _ | q
              · rw [hx] at hsome
                simp at hsome
              · rw [hx] at this
                simp at this
            · exact h4
          rw [hpat i hi, hix4]
          omega
        · exact hall i hi

/-- The invariant holds after any feed sequence. -/
theorem tdseqInv_feed (feeds : List (ℚ × ℚ × ℚ)) : TdSeqInv (TdSeq.feed feeds) := by
  have main : ∀ (lst : List (ℚ × ℚ × ℚ)) (s : TdSeq), TdSeqInv s →
      TdSeqInv (lst.foldl (fun s t => s.next t.1 t.2.1 t.2.2) s) := by
    intro lst
    induction lst with
    | nil => exact fun s hs => hs
    | cons x xs ih => exact fun s hs => ih _ (tdseqInv_step s x.1 x.2.1 x.2.2 hs)
  exact main feeds TdSeq.new tdseqInv_new

/-- C6: after every feed the setup counters stay at most 9; the active
run flips from the buy (down) run to the sell (up) run only when the
strict down-comparison of the feed fails, and from sell to buy only when
it holds (a feed contradicting the current run); and a counter reaching
9 triggers exactly one perfect-flag evaluation, on that very feed — on a
feed where neither counter reaches 9 the flag is unchanged, so the reset
of a counter from 9 at the start of the following full-window update
happens with no further evaluation. -/
theorem tdseq_counter_discipline (feeds : List (ℚ × ℚ × ℚ)) (h l c : ℚ) :
    (TdSeq.feed feeds).buy_setup_count ≤ 9 ∧
    (TdSeq.feed feeds).sell_setup_count ≤ 9 ∧
    ((TdSeq.feed feeds).buy_setup_count ≠ 0 →
      ((TdSeq.feed feeds).next h l c).sell_setup_count ≠ 0 →
      tdGoesDown (TdSeq.feed feeds) c = false) ∧
    ((TdSeq.feed feeds).sell_setup_count ≠ 0 →
      ((TdSeq.feed feeds).next h l c).buy_setup_count ≠ 0 →
      tdGoesDown (TdSeq.feed feeds) c = true) ∧
    (((TdSeq.feed feeds).next h l c).buy_setup_count = 9 →
      ((TdSeq.feed feeds).next h l c).perfect
        = buyPerfectEval ((TdSeq.feed feeds).lows.set (TdSeq.feed feeds).index (some l))
            (prevIdx (TdSeq.feed feeds).index) (TdSeq.feed feeds).index) ∧
    (((TdSeq.feed feeds).next h l c).sell_setup_count = 9 →
      ((TdSeq.feed feeds).next h l c).perfect
        = sellPerfectEval ((TdSeq.feed feeds).highs.set (TdSeq.feed feeds).index (some h))
            (prevIdx (TdSeq.feed feeds).index) (TdSeq.feed feeds).index) ∧
    (((TdSeq.feed feeds).next h l c).buy_setup_count ≠ 9 →
      ((TdSeq.feed feeds).next h l c).sell_setup_count ≠ 9 →
      ((TdSeq.feed feeds).next h l c).perfect = (TdSeq.feed feeds).perfect) := by
  have hInv := tdseqInv_feed feeds
  obtain ⟨hidx, hlen, hb9, hs9, hphase⟩ := hInv
  by_cases hcond : ((TdSeq.feed feeds).closes.getD (TdSeq.feed feeds).index none).isNone ∧
      (TdSeq.feed feeds).index ≠ 4
  · -- the next feed takes the warm-up branch: counters and flag unchanged
    obtain ⟨hb0, hs0, _⟩ :=
      tdseqInv_warm_phase (TdSeq.feed feeds) ⟨hidx, hlen, hb9, hs9, hphase⟩ hcond
    refine ⟨hb9, hs9, ?_, ?_, ?_, ?_, ?_⟩
    · intro hb _
      exact absurd hb0 hb
    · intro hsell _
      exact absurd hs0 hsell
    · intro h9
      rw [TdSeq.next, if_pos hcond] at h9
      have h9' : (TdSeq.feed feeds).buy_setup_count = 9 := h9
      omega
    · intro h9
      rw [TdSeq.next, if_pos hcond] at h9
      have h9' : (TdSeq.feed feeds).sell_setup_count = 9 := h9
      omega
    · intro _ _
      rw [TdSeq.next, if_pos hcond]
      rfl
  · -- the next feed takes the full-window branch
    refine ⟨hb9, hs9, ?_, ?_, ?_, ?_, ?_⟩
    · intro _ hs'
      rw [TdSeq.next, if_neg hcond, tdseq_step_sell] at hs'
      cases hg : tdGoesDown (TdSeq.feed feeds) c
      · rfl
      · rw [hg] at hs'
        simp at hs'
    · intro _ hb'
      rw [TdSeq.next, if_neg hcond, tdseq_step_buy] at hb'
      cases hg : tdGoesDown (TdSeq.feed feeds) c
      · rw [hg] at hb'
        simp at hb'
      · rfl
    · intro h9
      rw [TdSeq.next, if_neg hcond] at h9 ⊢
      rw [tdseq_step_perfect, if_pos h9]
    · intro h9
      rw [TdSeq.next, if_neg hcond] at h9 ⊢
      have hbne : ¬ ((TdSeq.feed feeds).step h l c).buy_setup_count = 9 := by
        have hsell := h9
        rw [tdseq_step_sell] at hsell
        rw [tdseq_step_buy]
        cases hg : tdGoesDown (TdSeq.feed feeds) c
        · simp
        · rw [hg] at hsell
          simp at hsell
      rw [tdseq_step_perfect, if_neg hbne, if_pos h9]
    · intro hb' hs'
      rw [TdSeq.next, if_neg hcond] at hb' hs' ⊢
      rw [tdseq_step_perfect, if_neg hb', if_neg hs']

/-- Witness for C6 at a concrete run: after four warm-up candles at close
10 and a down candle at 9 (buy run active), a feed closing back at 50
flips to the sell run, so the strict down-comparison failed; and the
counters after the five feeds are within bound. -/
theorem tdseq_counter_discipline_witness :
    (TdSeq.feed [(10, 10, 10), (10, 10, 10), (10, 10, 10), (10, 10, 10),
        (9, 9, 9)]).buy_setup_count ≤ 9 ∧
    tdGoesDown (TdSeq.feed [(10, 10, 10), (10, 10, 10), (10, 10, 10), (10, 10, 10),
        (9, 9, 9)]) 50 = false :=
  ⟨(tdseq_counter_discipline
      [(10, 10, 10), (10, 10, 10), (10, 10, 10), (10, 10, 10), (9, 9, 9)] 50 50 50).1,
   (tdseq_counter_discipline
      [(10, 10, 10), (10, 10, 10), (10, 10, 10), (10, 10, 10), (9, 9, 9)] 50 50 50).2.2.1
      (by decide) (by decide)⟩

/-! ## C4: failure behaviour of the field scanner -/

/-- C4 counterexample: an object body left unbalanced by the end of the
buffer (here the remainder of a truncated object, a quoted key, a colon
and a digit, with no closing brace) makes `skip_value(Object)` consume to
the end and return normally, and a scalar never terminated by a comma
makes `skip_value(Other)` return normally: neither aborts on premature
end of buffer. -/
theorem skip_value_returns_normally_at_eof :
    skip_value Value.Object [34, 97, 34, 58, 49] = some [] ∧
    skip_value Value.Other [49, 50] = some [] := by
  constructor <;> rfl

/-- Scalar skipping always returns normally. -/
theorem skip_other_total (l : List ℕ) : ∃ r, skip_other l = some r := by
  induction l with
  | nil => exact ⟨[], rfl⟩
  | cons b rest ih =>
    by_cases hb : b = 44
    · exact ⟨rest, by simp [skip_other, hb]⟩
    · obtain ⟨r, hr⟩ := ih
      exact ⟨r, by simp [skip_other, hb, hr]⟩

/-- Array skipping panics when the buffer ends with brackets open. -/
theorem skip_array_none_of_no_close (l : List ℕ) (hno : ∀ b ∈ l, b ≠ 93) :
    ∀ d : ℕ, skip_array (d + 1) l = none := by
  induction l with
  | nil => intro d; rfl
  | cons b rest ih =>
    intro d
    have hb : b ≠ 93 := hno b (by simp)
    have hrest : ∀ x ∈ rest, x ≠ 93 := fun x hx => hno x (by simp [hx])
    by_cases hb91 : b = 91
    · show skip_array (d + 1) (b :: rest) = none
      rw [skip_array]
      simp only [hb91, if_pos rfl]
      exact ih hrest (d + 1)
    · show skip_array (d + 1) (b :: rest) = none
      rw [skip_array]
      simp only [if_neg hb91, if_neg hb]
      exact ih hrest d

/-- Scanning for an opening quote panics at the end of the buffer. -/
theorem dropToQuote_none (l : List ℕ) (hno : ∀ b ∈ l, b ≠ 34) :
    dropToQuote l = none := by
  induction l with
  | nil => rfl
  | cons b rest ih =>
    have hb : b ≠ 34 := hno b (by simp)
    rw [dropToQuote, if_neg hb]
    exact ih fun x hx => hno x (by simp [hx])

/-- C4 amended: the array skip and `find_key` abort on premature end of
buffer — an array skip over a buffer with no closing bracket panics, and
`find_key` over a buffer that ends while scanning for a key panics — but
the object skip and the scalar skip return normally for every buffer,
including buffers that end before the object is balanced or before the
scalar is comma-terminated. -/
theorem finder_eof_behaviour :
    (∀ l : List ℕ, ∃ r, skip_value Value.Object l = some r) ∧
    (∀ l : List ℕ, ∃ r, skip_value Value.Other l = some r) ∧
    (∀ (l : List ℕ) (d : ℕ), (∀ b ∈ l, b ≠ 93) → skip_array (d + 1) l = none) ∧
    (∀ (target l : List ℕ), (∀ b ∈ l, b ≠ 34) → find_key target l = none) := by
  refine ⟨fun l => ⟨skip_object 1 l, rfl⟩, skip_other_total, ?_, ?_⟩
  · intro l d hno
    exact skip_array_none_of_no_close l hno d
  · intro target l hno
    show findKeyLoop target (l.length + 1) l = none
    rw [findKeyLoop, dropToQuote_none l hno]

/-- Witness for C4's amended theorem: the object skip returns normally on
a lone opening brace, the array skip panics on a digit-only buffer, and
`find_key` panics on a quoteless buffer. -/
theorem finder_eof_behaviour_witness :
    (∃ r, skip_value Value.Object [123] = some r) ∧
    skip_array 1 [49, 50] = none ∧
    find_key [97] [49] = none :=
  ⟨finder_eof_behaviour.1 [123],
   finder_eof_behaviour.2.2.1 [49, 50] 0 (by decide),
   finder_eof_behaviour.2.2.2 [97] [49] (by decide)⟩

/-! ## C3: the rolling extremum tracks the window -/

/-- A left fold by max dominates its initial value. -/
theorem foldl_max_init_le {α : Type} [LinearOrder α]
    (l : List (WithBot α)) (init : WithBot α) : init ≤ l.foldl max init := by
  induction l generalizing init with
  | nil => exact le_refl _
  | cons a l ih => exact le_trans (le_max_left init a) (ih (max init a))

/-- A left fold by max dominates every element. -/
theorem foldl_max_mem_le {α : Type} [LinearOrder α]
    (l : List (WithBot α)) (init : WithBot α) (x : WithBot α) (hx : x ∈ l) :
    x ≤ l.foldl max init := by
  induction l generalizing init with
  | nil => cases hx
  | cons a l ih =>
    rcases List.mem_cons.mp hx with rfl | hx
    · exact le_trans (le_max_right init x) (foldl_max_init_le l (max init x))
    · exact ih (max init a) hx

/-- A left fold by max is the initial value or an element. -/
theorem foldl_max_cases {α : Type} [LinearOrder α]
    (l : List (WithBot α)) (init : WithBot α) :
    l.foldl max init = init ∨ l.foldl max init ∈ l := by
  induction l generalizing init with
  | nil => exact Or.inl rfl
  | cons a l ih =>
    rcases ih (max init a) with heq | hmem
    · rw [List.foldl_cons, heq]
      rcases max_choice init a with h | h
      · exact Or.inl h
      · exact Or.inr (by rw [h]; exact List.mem_cons_self a l)
    · exact Or.inr (List.mem_cons_of_mem a hmem)

/-- An in-range read with default is an element. -/
theorem getD_mem_of_lt {α : Type} (l : List α) (d : α) {i : ℕ} (h : i < l.length) :
    l.getD i d ∈ l := by
  induction l generalizing i with
  | nil => simp at h
  | cons a l ih =>
    cases i with
    | zero => exact List.mem_cons_self a l
    | succ i => exact List.mem_cons_of_mem a (ih (by simpa using h))

/-- Every buffer read is at most the buffer maximum. -/
theorem getD_le_listMax {α : Type} [LinearOrder α]
    (l : List (WithBot α)) (i : ℕ) : l.getD i ⊥ ≤ listMax l := by
  by_cases hi : i < l.length
  · exact foldl_max_mem_le l ⊥ _ (getD_mem_of_lt l ⊥ hi)
  · rw [List.getD_eq_default _ _ (by omega)]
    exact bot_le

/-- The buffer maximum is the sentinel or attained at some slot. -/
theorem listMax_attained {α : Type} [LinearOrder α] (l : List (WithBot α)) :
    listMax l = ⊥ ∨ ∃ i : ℕ, i < l.length ∧ l.getD i ⊥ = listMax l := by
  rcases foldl_max_cases l ⊥ with heq | hmem
  · exact Or.inl heq
  · obtain ⟨i, hget⟩ := List.mem_iff_get.mp hmem
    refine Or.inr ⟨i, i.isLt, ?_⟩
    rw [List.getD_eq_getElem?_getD, List.getElem?_eq_getElem i.isLt]
    simpa using hget

/-- A slot value dominating every slot is the buffer maximum. -/
theorem listMax_eq_of_ub {α : Type} [LinearOrder α] (l : List (WithBot α))
    (j : ℕ) (e : WithBot α) (hj : l.getD j ⊥ = e)
    (hub : ∀ i : ℕ, l.getD i ⊥ ≤ e) : listMax l = e := by
  apply le_antisymm
  · rcases listMax_attained l with hbot | ⟨i, _, hi⟩
    · rw [hbot]
      exact bot_le
    · rw [← hi]
      exact hub i
  · rw [← hj]
    exact getD_le_listMax l j

/-- The rescue scan of `find_max_index` lands on a slot dominating every
slot: called on the suffix `L.drop i` with a running best `m` that
dominates the first `i` slots and is the sentinel or held at `idx`. -/
theorem findMaxAux_spec {α : Type} [LinearOrder α] (L : List (WithBot α)) :
    ∀ (rest : List (WithBot α)) (i : ℕ) (m : WithBot α) (idx : ℕ),
      rest = L.drop i → idx < L.length →
      (∀ k : ℕ, k < i → L.getD k ⊥ ≤ m) →
      (m = ⊥ ∨ L.getD idx ⊥ = m) →
      findMaxAux rest i m idx < L.length ∧
        ∀ k : ℕ, k < L.length → L.getD k ⊥ ≤ L.getD (findMaxAux rest i m idx) ⊥ := by
  intro rest
  induction rest with
  | nil =>
    intro i m idx hdrop hidx hub hatt
    refine ⟨hidx, fun k hk => ?_⟩
    have hil : L.length ≤ i := by
      by_contra hlt
      push_neg at hlt
      have hlen := congrArg List.length hdrop
      rw [List.length_drop] at hlen
      simp at hlen
      omega
    have hkm := hub k (by omega)
    show L.getD k ⊥ ≤ L.getD idx ⊥
    rcases hatt with hbot | hidxa
    · rw [hbot] at hkm
      rw [le_bot_iff.mp hkm]
      exact bot_le
    · rw [hidxa]
      exact hkm
  | cons v rest ih =>
    intro i m idx hdrop hidx hub hatt
    have hlen : i < L.length := by
      by_contra hge
      push_neg at hge
      rw [List.drop_eq_nil_of_le hge] at hdrop
      cases hdrop
    have hv : L.getD i ⊥ = v := by
      have hdec := List.drop_eq_getElem_cons hlen
      rw [hdec] at hdrop
      have : v = L[i] := ((List.cons.injEq _ _ _ _).mp hdrop.symm).1.symm
      rw [List.getD_eq_getElem?_getD, List.getElem?_eq_getElem hlen, this]
      rfl
    have hrest : rest = L.drop (i + 1) := by
      have hdec := List.drop_eq_getElem_cons hlen
      rw [hdec] at hdrop
      exact ((List.cons.injEq _ _ _ _).mp hdrop.symm).2.symm
    rw [findMaxAux]
    by_cases hcmp : m < v
    · rw [if_pos hcmp]
      refine ih (i + 1) v i hrest hlen (fun k hk => ?_) (Or.inr hv)
      rcases Nat.lt_or_ge k i with hki | hki
      · exact le_trans (hub k hki) (le_of_lt hcmp)
      · have : k = i := by omega
        rw [this, hv]
    · rw [if_neg hcmp]
      refine ih (i + 1) m idx hrest hidx (fun k hk => ?_) hatt
      rcases Nat.lt_or_ge k i with hki | hki
      · exact hub k hki
      · have : k = i := by omega
        rw [this, hv]
        exact not_lt.mp hcmp

/-- Buffer of the rolling maximum after one step. -/
theorem maximum_next_values {α : Type} [LinearOrder α] (s : Maximum α) (price : α) :
    (s.next price).values = s.values.set s.cur_index ↑price :=
  rfl

/-- Period of the rolling maximum after one step. -/
theorem maximum_next_period {α : Type} [LinearOrder α] (s : Maximum α) (price : α) :
    (s.next price).period = s.period :=
  rfl

/-- Cursor of the rolling maximum after one step. -/
theorem maximum_next_cur {α : Type} [LinearOrder α] (s : Maximum α) (price : α) :
    (s.next price).cur_index = if s.cur_index + 1 < s.period then s.cur_index + 1 else 0 :=
  rfl

/-- Tracked index of the rolling maximum after one step. -/
theorem maximum_next_max {α : Type} [LinearOrder α] (s : Maximum α) (price : α) :
    (s.next price).max_index =
      if (↑price : WithBot α) > (s.values.set s.cur_index ↑price).getD s.max_index ⊥ then
        s.cur_index
      else if s.max_index = s.cur_index then
        findMaxAux (s.values.set s.cur_index ↑price) 0 ⊥ 0
      else s.max_index :=
  rfl

/-- One step preserves the structural invariant of the rolling maximum. -/
theorem maxInv_next {α : Type} [LinearOrder α] (s : Maximum α) (price : α)
    (hs : MaxInv s) : MaxInv (s.next price) := by
  obtain ⟨hmi, hci, hlen, hmax⟩ := hs
  have hP : 1 ≤ s.period := by omega
  have hlen' : (s.values.set s.cur_index (↑price : WithBot α)).length = s.period := by
    rw [List.length_set, hlen]
  have hcur : (s.values.set s.cur_index (↑price : WithBot α)).getD s.cur_index ⊥ = ↑price := by
    rw [getD_set_self, hlen, if_pos hci]
  unfold MaxInv
  rw [maximum_next_values, maximum_next_period, maximum_next_cur, maximum_next_max]
  by_cases hgt : ((price : WithBot α) > (s.values.set s.cur_index ↑price).getD s.max_index ⊥)
  · rw [if_pos hgt]
    have hmc : s.max_index ≠ s.cur_index := by
      intro heq
      rw [heq, hcur] at hgt
      exact lt_irrefl _ hgt
    refine ⟨hci, by split <;> omega, hlen', ?_⟩
    rw [hcur]
    refine (listMax_eq_of_ub _ s.cur_index _ hcur (fun i => ?_)).symm
    by_cases hic : i = s.cur_index
    · rw [hic, hcur]
    · rw [getD_set_ne _ (fun hh => hic hh.symm)]
      calc s.values.getD i ⊥ ≤ listMax s.values := getD_le_listMax _ _
        _ = s.values.getD s.max_index ⊥ := hmax.symm
        _ = (s.values.set s.cur_index ↑price).getD s.max_index ⊥ :=
            (getD_set_ne _ (fun hh => hmc hh.symm) _ _).symm
        _ ≤ ↑price := le_of_lt hgt
  · rw [if_neg hgt]
    by_cases heq : s.max_index = s.cur_index
    · rw [if_pos heq]
      obtain ⟨hjlt, hub⟩ := findMaxAux_spec (s.values.set s.cur_index ↑price)
        (s.values.set s.cur_index ↑price) 0 ⊥ 0 rfl (by rw [hlen']; omega)
        (fun k hk => absurd hk (by omega)) (Or.inl rfl)
      refine ⟨by rw [hlen'] at hjlt; exact hjlt, by split <;> omega, hlen', ?_⟩
      refine (listMax_eq_of_ub _ _ _ rfl (fun i => ?_)).symm
      by_cases hi : i < (s.values.set s.cur_index (↑price : WithBot α)).length
      · exact hub i hi
      · rw [List.getD_eq_default _ _ (by omega)]
        exact bot_le
    · rw [if_neg heq]
      have hLmax : (s.values.set s.cur_index (↑price : WithBot α)).getD s.max_index ⊥
          = s.values.getD s.max_index ⊥ :=
        getD_set_ne _ (fun hh => heq hh.symm) _ _
      refine ⟨hmi, by split <;> omega, hlen', ?_⟩
      refine (listMax_eq_of_ub _ s.max_index _ rfl (fun i => ?_)).symm
      by_cases hic : i = s.cur_index
      · rw [hic, hcur, hLmax, hmax]
        have hle := not_lt.mp hgt
        rwa [hLmax, hmax] at hle
      · rw [getD_set_ne _ (fun hh => hic hh.symm), hLmax, hmax]
        exact getD_le_listMax _ _

/-- Cursor advance is increment modulo the period. -/
theorem mod_step (n P : ℕ) (hP : 1 ≤ P) :
    (if n % P + 1 < P then n % P + 1 else 0) = (n + 1) % P := by
  have hlt : n % P < P := Nat.mod_lt _ (by omega)
  rcases Nat.eq_or_lt_of_le hP with hP1 | hP2
  · have hPe : P = 1 := hP1.symm
    subst hPe
    simp [Nat.mod_one]
  · have h1P : 1 % P = 1 := Nat.mod_eq_of_lt (by omega)
    by_cases hc : n % P + 1 < P
    · rw [if_pos hc, Nat.add_mod, h1P, Nat.mod_eq_of_lt hc]
    · rw [if_neg hc]
      have hPe : n % P + 1 = P := by omega
      rw [Nat.add_mod, h1P, hPe, Nat.mod_self]

/-- Positions less than a period apart have distinct slots. -/
theorem mod_ne_of_close (m n P : ℕ) (hmn : m < n) (hgap : n - m < P) :
    m % P ≠ n % P := by
  intro h
  have hdvd : P ∣ n - m := (Nat.modEq_iff_dvd' (le_of_lt hmn)).mp h
  have := Nat.le_of_dvd (by omega) hdvd
  omega

/-- Dropping one full period from a position keeps its slot. -/
theorem sub_mod_self (n P : ℕ) (hPn : P ≤ n) : (n - P) % P = n % P := by
  conv_rhs => rw [← Nat.sub_add_cancel hPn]
  rw [Nat.add_mod_right]

/-- One step preserves the contents invariant of the rolling maximum. -/
theorem contInv_next {α : Type} [LinearOrder α] (P : ℕ) (xs : List α) (x : α)
    (s : Maximum α) (hP : 1 ≤ P) (hlen : s.values.length = s.period)
    (h2 : ContInv P xs s) : ContInv P (xs ++ [x]) (s.next x) := by
  obtain ⟨hper, hcur, hwin, hcov⟩ := h2
  have hlenP : s.values.length = P := by rw [hlen, hper]
  unfold ContInv
  rw [maximum_next_values, maximum_next_period, maximum_next_cur]
  refine ⟨hper, ?_, ?_, ?_⟩
  · rw [hcur, hper, List.length_append, List.length_singleton]
    exact mod_step xs.length P hP
  · intro m hm1 hm2
    rw [List.length_append, List.length_singleton] at hm1 hm2
    by_cases hmn : m = xs.length
    · subst hmn
      rw [hcur]
      rw [getD_set_self, hlenP, if_pos (Nat.mod_lt _ (by omega))]
      unfold entryOf
      rw [List.get?_concat_length]
    · have hmlt : m < xs.length := by omega
      have hne : s.cur_index ≠ m % P := by
        rw [hcur]
        intro hh
        exact mod_ne_of_close m xs.length P hmlt (by omega) hh.symm
      rw [getD_set_ne _ hne]
      rw [hwin m (by omega) hmlt]
      unfold entryOf
      rw [List.get?_append hmlt]
  · intro i hi
    by_cases hie : i = xs.length % P
    · refine Or.inr ⟨xs.length, ?_, ?_, hie.symm⟩
      · rw [List.length_append, List.length_singleton]
        omega
      · rw [List.length_append, List.length_singleton]
        omega
    · have hne : s.cur_index ≠ i := by
        rw [hcur]
        exact fun hh => hie hh.symm
      rw [getD_set_ne _ hne]
      rcases hcov i hi with hbot | ⟨m, hm1, hm2, hm3⟩
      · exact Or.inl hbot
      · refine Or.inr ⟨m, ?_, ?_, hm3⟩
        · rw [List.length_append, List.length_singleton]
          rcases Nat.lt_or_ge xs.length P with hnP | hPn
          · omega
          · by_cases hmP : m = xs.length - P
            · exfalso
              apply hie
              rw [← hm3, hmP, sub_mod_self xs.length P hPn]
            · omega
        · rw [List.length_append, List.length_singleton]
          omega

/-- The buffer maximum of the all-sentinel buffer. -/
theorem listMax_replicate_bot {α : Type} [LinearOrder α] (P : ℕ) :
    listMax (List.replicate P (⊥ : WithBot α)) = ⊥ := by
  induction P with
  | zero => rfl
  | succ P ih =>
    unfold listMax at *
    rw [List.replicate_succ, List.foldl_cons, max_self]
    exact ih

/-- The fresh rolling maximum satisfies the structural invariant. -/
theorem maxInv_new {α : Type} [LinearOrder α] (P : ℕ) (hP : 1 ≤ P) :
    MaxInv (Maximum.new α P) := by
  refine ⟨show 0 < P by omega, show 0 < P by omega, ?_, ?_⟩
  · show (List.replicate P (⊥ : WithBot α)).length = P
    rw [List.length_replicate]
  · show (List.replicate P (⊥ : WithBot α)).getD 0 ⊥ = listMax (List.replicate P ⊥)
    rw [getD_replicate_of_lt _ _ (by omega : 0 < P), listMax_replicate_bot]

/-- The fresh rolling maximum satisfies the contents invariant. -/
theorem contInv_new {α : Type} [LinearOrder α] (P : ℕ) (hP : 1 ≤ P) :
    ContInv P [] (Maximum.new α P) := by
  refine ⟨rfl, (Nat.zero_mod P).symm, fun m hm1 hm2 => by simp at hm2, fun i hi => Or.inl ?_⟩
  show (List.replicate P (⊥ : WithBot α)).getD i ⊥ = ⊥
  exact getD_replicate_of_lt _ _ hi

/-- Both invariants hold after any feed. -/
theorem maximum_feed_inv {α : Type} [LinearOrder α] (P : ℕ) (hP : 1 ≤ P) (xs : List α) :
    MaxInv (Maximum.feed α P xs) ∧ ContInv P xs (Maximum.feed α P xs) := by
  induction xs using List.reverseRecOn with
  | nil => exact ⟨maxInv_new P hP, contInv_new P hP⟩
  | append_singleton ys y ih =>
    have hfeed : Maximum.feed α P (ys ++ [y]) = (Maximum.feed α P ys).next y := by
      unfold Maximum.feed
      rw [List.foldl_append]
      rfl
    rw [hfeed]
    exact ⟨maxInv_next _ _ ih.1, contInv_next P ys y _ hP ih.1.2.2.1 ih.2⟩

/-- An in-range `get?` returns the defaulted read. -/
theorem get?_eq_some_getD {α : Type} (l : List α) (d : α) {i : ℕ} (h : i < l.length) :
    l.get? i = some (l.getD i d) := by
  rw [List.getD_eq_getElem?_getD, List.get?_eq_getElem?, List.getElem?_eq_getElem h]
  rfl

/-- The rolling maximum after any nonempty feed returns the true maximum
of the last `min P (length xs)` samples: a sample of that window that
dominates the whole window. -/
theorem maximum_tracks_window {α : Type} [LinearOrder α] (P : ℕ) (hP : 1 ≤ P)
    (xs : List α) (hxs : xs ≠ []) :
    ∃ M : α, (Maximum.feed α P xs).get = some ↑M ∧
      M ∈ xs.drop (xs.length - P) ∧ ∀ y ∈ xs.drop (xs.length - P), y ≤ M := by
  obtain ⟨⟨hmi, hci, hlen, hmax⟩, hper, hcur, hwin, hcov⟩ := maximum_feed_inv P hP xs
  set s := Maximum.feed α P xs with hs
  have hn : 1 ≤ xs.length := by
    cases xs with
    | nil => exact absurd rfl hxs
    | cons a l => simp
  have hlast : s.values.getD ((xs.length - 1) % P) ⊥ = entryOf xs (xs.length - 1) :=
    hwin (xs.length - 1) (by omega) (by omega)
  obtain ⟨q0, hq0⟩ : ∃ q, xs.get? (xs.length - 1) = some q := by
    rw [List.get?_eq_getElem?, List.getElem?_eq_getElem (by omega)]
    exact ⟨_, rfl⟩
  have hq0' : entryOf xs (xs.length - 1) = ↑q0 := by
    unfold entryOf
    rw [hq0]
  have hbotlt : (⊥ : WithBot α) < s.values.getD s.max_index ⊥ := by
    rw [hmax]
    calc (⊥ : WithBot α) < ↑q0 := WithBot.bot_lt_coe q0
      _ = entryOf xs (xs.length - 1) := hq0'.symm
      _ = s.values.getD ((xs.length - 1) % P) ⊥ := hlast.symm
      _ ≤ listMax s.values := getD_le_listMax _ _
  rcases hcov s.max_index (by rw [← hper]; exact hmi) with hbot | ⟨m, hm1, hm2, hm3⟩
  · rw [hbot] at hbotlt
    exact absurd hbotlt (lt_irrefl _)
  · have hslot : s.values.getD s.max_index ⊥ = entryOf xs m := by
      rw [← hm3]
      exact hwin m hm1 hm2
    obtain ⟨M, hM⟩ : ∃ q, xs.get? m = some q := by
      rw [List.get?_eq_getElem?, List.getElem?_eq_getElem hm2]
      exact ⟨_, rfl⟩
    have hslot' : s.values.getD s.max_index ⊥ = ↑M := by
      rw [hslot]
      unfold entryOf
      rw [hM]
    refine ⟨M, ?_, ?_, ?_⟩
    · show s.values.get? s.max_index = some ↑M
      rw [get?_eq_some_getD s.values ⊥ (by rw [hlen]; exact hmi), hslot']
    · have hdrop : (xs.drop (xs.length - P)).get? (m - (xs.length - P)) = some M := by
        rw [List.get?_drop]
        have harg : xs.length - P + (m - (xs.length - P)) = m := by omega
        rw [harg]
        exact hM
      exact List.get?_mem hdrop
    · intro y hy
      obtain ⟨j, hj⟩ := List.mem_iff_get?.mp hy
      rw [List.get?_drop] at hj
      have hjlt : xs.length - P + j < xs.length := by
        rcases List.get?_eq_some.mp hj with ⟨hb, _⟩
        exact hb
      have hwiny := hwin (xs.length - P + j) (by omega) hjlt
      have hyslot : s.values.getD ((xs.length - P + j) % P) ⊥ = ↑y := by
        rw [hwiny]
        unfold entryOf
        rw [hj]
      have hle : (↑y : WithBot α) ≤ ↑M :=
        calc (↑y : WithBot α) = s.values.getD ((xs.length - P + j) % P) ⊥ := hyslot.symm
          _ ≤ listMax s.values := getD_le_listMax _ _
          _ = s.values.getD s.max_index ⊥ := hmax.symm
          _ = ↑M := hslot'
      exact WithBot.coe_le_coe.mp hle

/-- The Minimum program is the Maximum program on the dual samples. -/
theorem minimum_feed_eq (P : ℕ) (xs : List ℚ) :
    Minimum.feed P xs = Maximum.feed ℚᵒᵈ P (xs.map OrderDual.toDual) := by
  unfold Minimum.feed Maximum.feed Minimum.next Minimum.new
  rw [List.foldl_map]
  rfl

/-- C3: for every period P ≥ 1 and nonempty feed, the rolling maximum's
`get` returns the true maximum of the last `min P (feeds-so-far)` samples
(a sample of that window that dominates it), and symmetrically the
rolling minimum returns the true minimum of the same window. -/
theorem rolling_extrema_track_window (P : ℕ) (hP : 1 ≤ P) (xs : List ℚ) (hxs : xs ≠ []) :
    (∃ M : ℚ, (Maximum.feed ℚ P xs).get = some ↑M ∧
      M ∈ xs.drop (xs.length - P) ∧ ∀ y ∈ xs.drop (xs.length - P), y ≤ M) ∧
    (∃ m : ℚ, (Minimum.feed P xs).get = some ↑(OrderDual.toDual m) ∧
      m ∈ xs.drop (xs.length - P) ∧ ∀ y ∈ xs.drop (xs.length - P), m ≤ y) := by
  constructor
  · exact maximum_tracks_window P hP xs hxs
  · have hmap : (xs.map (OrderDual.toDual : ℚ → ℚᵒᵈ)) ≠ [] := by
      simpa using hxs
    obtain ⟨M, hget, hmem, hub⟩ := maximum_tracks_window P hP (xs.map OrderDual.toDual) hmap
    refine ⟨OrderDual.ofDual M, ?_, ?_, ?_⟩
    · rw [minimum_feed_eq]
      exact hget
    · rw [List.length_map, ← List.map_drop] at hmem
      obtain ⟨a, ha, haeq⟩ := List.mem_map.mp hmem
      have : a = OrderDual.ofDual M := congrArg OrderDual.ofDual haeq
      rw [← this]
      exact ha
    · intro y hy
      have hy' : OrderDual.toDual y ∈
          (xs.map OrderDual.toDual).drop ((xs.map OrderDual.toDual).length - P) := by
        rw [List.length_map, ← List.map_drop]
        exact List.mem_map_of_mem _ hy
      exact hub _ hy'

/-- Witness for C3 at period 2 and the feed [1, 3, 2]: the last two
samples are [3, 2], whose maximum and minimum the trackers return. -/
theorem rolling_extrema_track_window_witness :
    (∃ M : ℚ, (Maximum.feed ℚ 2 [1, 3, 2]).get = some ↑M ∧
      M ∈ [(1 : ℚ), 3, 2].drop ([(1 : ℚ), 3, 2].length - 2) ∧
      ∀ y ∈ [(1 : ℚ), 3, 2].drop ([(1 : ℚ), 3, 2].length - 2), y ≤ M) ∧
    (∃ m : ℚ, (Minimum.feed 2 [1, 3, 2]).get = some ↑(OrderDual.toDual m) ∧
      m ∈ [(1 : ℚ), 3, 2].drop ([(1 : ℚ), 3, 2].length - 2) ∧
      ∀ y ∈ [(1 : ℚ), 3, 2].drop ([(1 : ℚ), 3, 2].length - 2), m ≤ y) :=
  rolling_extrema_track_window 2 (by omega) [1, 3, 2] (by decide)

/-! ## C7: kline body round trip -/

/-- Appending a digit multiplies the numeral by ten and adds the digit. -/
theorem natOfDigits_concat (l : List ℕ) (b : ℕ) :
    natOfDigits (l ++ [b]) = 10 * natOfDigits l + (b - 48) := by
  unfold natOfDigits
  rw [List.foldl_append]
  rfl

/-- Rendering a natural number and reading it back is the identity. -/
theorem natOfDigits_natToDigits (n : ℕ) : natOfDigits (natToDigits n) = n := by
  induction n using Nat.strong_induction_on with
  | _ n ih =>
    rw [natToDigits]
    by_cases h10 : n < 10
    · rw [if_pos h10]
      show 10 * 0 + (48 + n - 48) = n
      omega
    · rw [if_neg h10]
      rw [natOfDigits_concat, ih (n / 10) (Nat.div_lt_self (by omega) (by norm_num))]
      omega

/-- Every byte of a rendered natural number is an ASCII digit. -/
theorem natToDigits_digits (n : ℕ) : ∀ b ∈ natToDigits n, 48 ≤ b ∧ b ≤ 57 := by
  induction n using Nat.strong_induction_on with
  | _ n ih =>
    intro b hb
    rw [natToDigits] at hb
    by_cases h10 : n < 10
    · rw [if_pos h10] at hb
      simp at hb
      omega
    · rw [if_neg h10] at hb
      rcases List.mem_append.mp hb with h | h
      · exact ih (n / 10) (Nat.div_lt_self (by omega) (by norm_num)) b h
      · simp at h
        have := Nat.mod_lt n (show 0 < 10 by norm_num)
        omega

/-- A rendered natural number is never empty. -/
theorem natToDigits_ne_nil (n : ℕ) : natToDigits n ≠ [] := by
  rw [natToDigits]
  by_cases h10 : n < 10
  · rw [if_pos h10]
    simp
  · rw [if_neg h10]
    simp

/-- A natural number below `10 ^ k` renders in at most `k` digits. -/
theorem natToDigits_length_le (n : ℕ) : ∀ k : ℕ, 1 ≤ k → n < 10 ^ k →
    (natToDigits n).length ≤ k := by
  induction n using Nat.strong_induction_on with
  | _ n ih =>
    intro k hk hn
    rw [natToDigits]
    by_cases h10 : n < 10
    · rw [if_pos h10]
      simpa using hk
    · rw [if_neg h10]
      rw [List.length_append, List.length_singleton]
      have hk2 : 2 ≤ k := by
        by_contra hlt
        push_neg at hlt
        have hke : k = 1 := by omega
        subst hke
        simp at hn
        omega
      have hdiv : n / 10 < 10 ^ (k - 1) := by
        have h1 : 10 ^ k = 10 * 10 ^ (k - 1) := by
          conv_lhs => rw [show k = 1 + (k - 1) by omega, pow_add, pow_one]
        rw [h1] at hn
        omega
      have := ih (n / 10) (Nat.div_lt_self (by omega) (by norm_num)) (k - 1) (by omega) hdiv
      omega

/-- Leading zero bytes do not change a numeral's value. -/
theorem natOfDigits_zero_padded (j : ℕ) (l : List ℕ) :
    natOfDigits (List.replicate j 48 ++ l) = natOfDigits l := by
  unfold natOfDigits
  rw [List.foldl_append]
  have hz : List.foldl (fun acc b => 10 * acc + (b - 48)) 0 (List.replicate j 48) = 0 := by
    induction j with
    | zero => rfl
    | succ j ihj =>
      rw [List.replicate_succ, List.foldl_cons]
      exact ihj
  rw [hz]

/-- The zero-padded fractional field reads back to its value. -/
theorem natOfDigits_padDigits (k r : ℕ) : natOfDigits (padDigits k r) = r := by
  unfold padDigits
  rw [natOfDigits_zero_padded, natOfDigits_natToDigits]

/-- The zero-padded fractional field has exactly `k` bytes. -/
theorem padDigits_length (k r : ℕ) (hk : 1 ≤ k) (hr : r < 10 ^ k) :
    (padDigits k r).length = k := by
  unfold padDigits
  rw [List.length_append, List.length_replicate]
  have := natToDigits_length_le r k hk hr
  omega

/-- Every byte of the padded fractional field is a digit. -/
theorem padDigits_digits (k r : ℕ) : ∀ b ∈ padDigits k r, 48 ≤ b ∧ b ≤ 57 := by
  intro b hb
  rcases List.mem_append.mp hb with h | h
  · rw [List.eq_of_mem_replicate h]
    omega
  · exact natToDigits_digits r b h

/-- A dotless token splits into itself and an empty fraction. -/
theorem splitDot_no_dot (l : List ℕ) (h : ∀ b ∈ l, b ≠ 46) : splitDot l = (l, []) := by
  induction l with
  | nil => rfl
  | cons b rest ih =>
    rw [splitDot, if_neg (h b (by simp)), ih (fun x hx => h x (by simp [hx]))]

/-- A token with one dot splits at that dot. -/
theorem splitDot_dot (A B : List ℕ) (h : ∀ b ∈ A, b ≠ 46) :
    splitDot (A ++ 46 :: B) = (A, B) := by
  induction A with
  | nil => rw [List.nil_append, splitDot, if_pos rfl]
  | cons a A ih =>
    rw [List.cons_append, splitDot, if_neg (h a (by simp)),
      ih (fun x hx => h x (by simp [hx]))]

/-- Every byte of a rendered decimal token is a digit or the dot. -/
theorem render_bytes (d : DecTok) : ∀ b ∈ d.render, (48 ≤ b ∧ b ≤ 57) ∨ b = 46 := by
  intro b hb
  unfold DecTok.render at hb
  by_cases hk : d.fracDigits = 0
  · rw [if_pos hk] at hb
    exact Or.inl (natToDigits_digits _ b hb)
  · rw [if_neg hk] at hb
    rcases List.mem_append.mp hb with h | h
    · exact Or.inl (natToDigits_digits _ b h)
    · rcases List.mem_cons.mp h with h46 | hpad
      · exact Or.inr h46
      · exact Or.inl (padDigits_digits _ _ b hpad)

/-- Parsing a rendered decimal token recovers its value exactly. -/
theorem parseDec_render (d : DecTok) : parseDec d.render = d.val := by
  unfold DecTok.render
  by_cases hk : d.fracDigits = 0
  · rw [if_pos hk]
    unfold parseDec
    have hnd : ∀ b ∈ natToDigits d.mantissa, b ≠ 46 := by
      intro b hb
      have := natToDigits_digits d.mantissa b hb
      omega
    rw [splitDot_no_dot _ hnd]
    unfold DecTok.val
    rw [hk]
    show (natOfDigits (natToDigits d.mantissa) : ℚ) + (natOfDigits [] : ℚ) / 10 ^ (List.length ([] : List ℕ)) = _
    rw [natOfDigits_natToDigits, show natOfDigits [] = 0 from rfl]
    norm_num
  · rw [if_neg hk]
    unfold parseDec
    have hk1 : 1 ≤ d.fracDigits := by omega
    have hnd : ∀ b ∈ natToDigits (d.mantissa / 10 ^ d.fracDigits), b ≠ 46 := by
      intro b hb
      have := natToDigits_digits _ b hb
      omega
    rw [splitDot_dot _ _ hnd]
    have hmod : d.mantissa % 10 ^ d.fracDigits < 10 ^ d.fracDigits :=
      Nat.mod_lt _ (by positivity)
    show (natOfDigits (natToDigits (d.mantissa / 10 ^ d.fracDigits)) : ℚ) +
        (natOfDigits (padDigits d.fracDigits (d.mantissa % 10 ^ d.fracDigits)) : ℚ) /
          10 ^ (padDigits d.fracDigits (d.mantissa % 10 ^ d.fracDigits)).length = d.val
    rw [natOfDigits_natToDigits, natOfDigits_padDigits, padDigits_length _ _ hk1 hmod]
    unfold DecTok.val
    have h10 : ((10 : ℚ) ^ d.fracDigits) ≠ 0 := by positivity
    have h1 : 10 ^ d.fracDigits * (d.mantissa / 10 ^ d.fracDigits) +
        d.mantissa % 10 ^ d.fracDigits = d.mantissa := Nat.div_add_mod _ _
    have h2 : ((10 : ℚ) ^ d.fracDigits) * ((d.mantissa / 10 ^ d.fracDigits : ℕ) : ℚ) +
        ((d.mantissa % 10 ^ d.fracDigits : ℕ) : ℚ) = (d.mantissa : ℚ) := by
      exact_mod_cast congrArg (fun z : ℕ => (z : ℚ)) h1
    rw [eq_div_iff h10, add_mul, div_mul_cancel₀ _ h10]
    rw [mul_comm ((d.mantissa / 10 ^ d.fracDigits : ℕ) : ℚ) _]
    exact h2

/-- In body mode, a digit or dot byte is accumulated while the field
index is at most 10. -/
theorem pkStep_digit_dot (fob : Bool) (i : ℕ) (tmp : List ℕ) (out : Klines) (b : ℕ)
    (hb : (48 ≤ b ∧ b ≤ 57) ∨ b = 46) (hi : i ≤ 10) :
    pkStep ⟨fob, true, i, tmp, out⟩ b = ⟨fob, true, i, tmp ++ [b], out⟩ := by
  have c1 : b ≠ 91 := by omega
  have c2 : b ≠ 93 := by omega
  have hdig : isDigitByte b = true ∨ b = 46 := by
    rcases hb with ⟨h1, h2⟩ | h3
    · left
      simp [isDigitByte]
      omega
    · right
      exact h3
  simp [pkStep, c1, c2, hdig, hi]

/-- In body mode, a comma commits the accumulated token to the current
column and advances the field index. -/
theorem pkStep_comma (fob : Bool) (i : ℕ) (tmp : List ℕ) (out : Klines) :
    pkStep ⟨fob, true, i, tmp, out⟩ 44
      = ⟨fob, true, i + 1, [], out.pushAt i tmp⟩ := by
  simp [pkStep, isDigitByte]

/-- In body mode, a quote byte is ignored. -/
theorem pkStep_quote (fob : Bool) (i : ℕ) (tmp : List ℕ) (out : Klines) :
    pkStep ⟨fob, true, i, tmp, out⟩ 34 = ⟨fob, true, i, tmp, out⟩ := by
  simp [pkStep, isDigitByte]

/-- In body mode past the last parsed column, a digit byte is ignored. -/
theorem pkStep_digit_high (fob : Bool) (i : ℕ) (tmp : List ℕ) (out : Klines) (b : ℕ)
    (hb : 48 ≤ b ∧ b ≤ 57) (hi : ¬ i ≤ 10) :
    pkStep ⟨fob, true, i, tmp, out⟩ b = ⟨fob, true, i, tmp, out⟩ := by
  have c1 : b ≠ 91 := by omega
  have c2 : b ≠ 93 := by omega
  have c3 : b ≠ 44 := by omega
  simp [pkStep, c1, c2, c3, hi]

/-- In body mode, a closing bracket ends the row: both flags drop and the
field index resets (the token buffer is left as is, as in the source). -/
theorem pkStep_close (fob : Bool) (i : ℕ) (tmp : List ℕ) (out : Klines) :
    pkStep ⟨fob, true, i, tmp, out⟩ 93 = ⟨false, false, 0, tmp, out⟩ := by
  simp [pkStep, isDigitByte]

/-- Outside body mode, an opening bracket raises the bracket flag. -/
theorem pkStep_open (fob : Bool) (i : ℕ) (tmp : List ℕ) (out : Klines) :
    pkStep ⟨fob, false, i, tmp, out⟩ 91 = ⟨true, false, i, tmp, out⟩ := by
  simp [pkStep, isDigitByte]

/-- Outside body mode with the bracket flag down, a comma is ignored. -/
theorem pkStep_comma_idle (i : ℕ) (tmp : List ℕ) (out : Klines) :
    pkStep ⟨false, false, i, tmp, out⟩ 44 = ⟨false, false, i, tmp, out⟩ := by
  simp [pkStep, isDigitByte]

/-- Outside body mode, a closing bracket is ignored. -/
theorem pkStep_close_idle (fob : Bool) (i : ℕ) (tmp : List ℕ) (out : Klines) :
    pkStep ⟨fob, false, i, tmp, out⟩ 93 = ⟨fob, false, i, tmp, out⟩ := by
  cases fob <;> simp [pkStep, isDigitByte]

/-- With the bracket flag up and body mode off, a digit byte starts the
body and is accumulated (the source sets `found_body` and then falls into
the accumulation branch on the same byte). -/
theorem pkStep_first_digit (i : ℕ) (tmp : List ℕ) (out : Klines) (b : ℕ)
    (hb : 48 ≤ b ∧ b ≤ 57) (hi : i ≤ 10) :
    pkStep ⟨true, false, i, tmp, out⟩ b = ⟨true, true, i, tmp ++ [b], out⟩ := by
  have c1 : b ≠ 91 := by omega
  have c2 : b ≠ 93 := by omega
  have hdig : isDigitByte b = true := by
    simp [isDigitByte]
    omega
  simp [pkStep, c1, c2, hdig, hi]

/-- Folding a digit/dot token in body mode accumulates it. -/
theorem tokenFold (t : List ℕ) (ht : ∀ b ∈ t, (48 ≤ b ∧ b ≤ 57) ∨ b = 46)
    (fob : Bool) (i : ℕ) (hi : i ≤ 10) (tmp : List ℕ) (out : Klines) :
    List.foldl pkStep ⟨fob, true, i, tmp, out⟩ t = ⟨fob, true, i, tmp ++ t, out⟩ := by
  induction t generalizing tmp with
  | nil => simp
  | cons b rest ih =>
    rw [List.foldl_cons, pkStep_digit_dot fob i tmp out b (ht b (by simp)) hi,
      ih (fun x hx => ht x (by simp [hx])) (tmp ++ [b])]
    simp

/-- Folding a quoted token and its trailing comma commits it. -/
theorem quotedFieldFold (t : List ℕ) (ht : ∀ b ∈ t, (48 ≤ b ∧ b ≤ 57) ∨ b = 46)
    (fob : Bool) (i : ℕ) (hi : i ≤ 10) (out : Klines) (rest : List ℕ) :
    List.foldl pkStep ⟨fob, true, i, [], out⟩ (quoteTok t ++ 44 :: rest)
      = List.foldl pkStep ⟨fob, true, i + 1, [], out.pushAt i t⟩ rest := by
  unfold quoteTok
  have hshape : (34 :: t ++ [34]) ++ 44 :: rest = 34 :: (t ++ 34 :: 44 :: rest) := by
    simp
  rw [hshape, List.foldl_cons, pkStep_quote, List.foldl_append,
    tokenFold t ht fob i hi [] out, List.nil_append, List.foldl_cons, pkStep_quote,
    List.foldl_cons, pkStep_comma]

/-- Folding a bare token and its trailing comma commits it. -/
theorem bareFieldFold (t : List ℕ) (ht : ∀ b ∈ t, (48 ≤ b ∧ b ≤ 57) ∨ b = 46)
    (fob : Bool) (i : ℕ) (hi : i ≤ 10) (out : Klines) (rest : List ℕ) :
    List.foldl pkStep ⟨fob, true, i, [], out⟩ (t ++ 44 :: rest)
      = List.foldl pkStep ⟨fob, true, i + 1, [], out.pushAt i t⟩ rest := by
  rw [List.foldl_append, tokenFold t ht fob i hi [] out, List.nil_append,
    List.foldl_cons, pkStep_comma]

/-- Folding the leading open-time token: its first digit flips the body
flag, the token accumulates and its comma commits column 0. -/
theorem openTimeFold (n : ℕ) (out : Klines) (rest : List ℕ) :
    List.foldl pkStep ⟨true, false, 0, [], out⟩ (natToDigits n ++ 44 :: rest)
      = List.foldl pkStep ⟨true, true, 1, [], out.pushAt 0 (natToDigits n)⟩ rest := by
  obtain ⟨d, ds, hds⟩ := List.exists_cons_of_ne_nil (natToDigits_ne_nil n)
  have hd : 48 ≤ d ∧ d ≤ 57 := natToDigits_digits n d (by rw [hds]; simp)
  have hdss : ∀ b ∈ ds, (48 ≤ b ∧ b ≤ 57) ∨ b = 46 := by
    intro b hb
    exact Or.inl (natToDigits_digits n b (by rw [hds]; simp [hb]))
  rw [hds, List.cons_append, List.foldl_cons,
    pkStep_first_digit 0 [] out d hd (by omega), List.nil_append,
    List.foldl_append, tokenFold ds hdss true 0 (by omega) [d] out,
    List.foldl_cons, pkStep_comma]
  rfl

/-- Folding one encoded row commits all eleven parsed columns and ends
with both flags down, the field index reset and the token buffer empty. -/
theorem rowFold (r : KRow) (fob : Bool) (out : Klines) :
    List.foldl pkStep ⟨fob, false, 0, [], out⟩ (encodeRow r)
      = ⟨false, false, 0, [], pushRow out r⟩ := by
  unfold encodeRow
  simp only [List.cons_append, List.append_assoc]
  rw [List.foldl_cons, pkStep_open, openTimeFold,
    quotedFieldFold _ (render_bytes r.opn) true 1 (by omega),
    quotedFieldFold _ (render_bytes r.high) true 2 (by omega),
    quotedFieldFold _ (render_bytes r.low) true 3 (by omega),
    quotedFieldFold _ (render_bytes r.close) true 4 (by omega),
    quotedFieldFold _ (render_bytes r.volume) true 5 (by omega),
    bareFieldFold _ (fun b hb => Or.inl (natToDigits_digits _ b hb)) true 6 (by omega),
    quotedFieldFold _ (render_bytes r.qav) true 7 (by omega),
    bareFieldFold _ (fun b hb => Or.inl (natToDigits_digits _ b hb)) true 8 (by omega),
    quotedFieldFold _ (render_bytes r.tbbav) true 9 (by omega),
    quotedFieldFold _ (render_bytes r.tbqav) true 10 (by omega)]
  rw [show quoteTok [48] ++ [93] = [34, 48, 34, 93] from rfl]
  rw [List.foldl_cons, pkStep_quote, List.foldl_cons,
    pkStep_digit_high true 11 [] _ 48 (by omega) (by omega),
    List.foldl_cons, pkStep_quote, List.foldl_cons, pkStep_close]
  show (⟨false, false, 0, [], _⟩ : ParseSt) = ⟨false, false, 0, [], pushRow out r⟩
  simp only [Klines.pushAt, pushRow, parseDec_render, natOfDigits_natToDigits]

/-- Folding the comma-joined rows commits each row in turn. -/
theorem joinFold (rows : List KRow) (hne : rows ≠ []) (fob : Bool) (out : Klines) :
    List.foldl pkStep ⟨fob, false, 0, [], out⟩ (joinRows rows)
      = ⟨false, false, 0, [], rows.foldl pushRow out⟩ := by
  induction rows generalizing fob out with
  | nil => exact absurd rfl hne
  | cons r rest ih =>
    cases rest with
    | nil =>
      show List.foldl pkStep _ (encodeRow r) = _
      rw [rowFold]
      rfl
    | cons r2 rest2 =>
      show List.foldl pkStep _ (encodeRow r ++ 44 :: joinRows (r2 :: rest2)) = _
      rw [List.foldl_append, rowFold, List.foldl_cons, pkStep_comma_idle,
        ih (by simp) false (pushRow out r)]
      rfl

/-- Open-time column of the accumulated rows. -/
theorem foldl_pushRow_open_time (rows : List KRow) : ∀ out : Klines,
    (rows.foldl pushRow out).open_time
      = out.open_time ++ rows.map (fun r => (r.open_time : ℤ)) := by
  induction rows with
  | nil => intro out; simp
  | cons r rest ih =>
    intro out
    rw [List.foldl_cons, ih]
    simp [pushRow]

/-- Open column of the accumulated rows. -/
theorem foldl_pushRow_opn (rows : List KRow) : ∀ out : Klines,
    (rows.foldl pushRow out).opn = out.opn ++ rows.map (fun r => r.opn.val) := by
  induction rows with
  | nil => intro out; simp
  | cons r rest ih =>
    intro out
    rw [List.foldl_cons, ih]
    simp [pushRow]

/-- High column of the accumulated rows. -/
theorem foldl_pushRow_high (rows : List KRow) : ∀ out : Klines,
    (rows.foldl pushRow out).high = out.high ++ rows.map (fun r => r.high.val) := by
  induction rows with
  | nil => intro out; simp
  | cons r rest ih =>
    intro out
    rw [List.foldl_cons, ih]
    simp [pushRow]

/-- Low column of the accumulated rows. -/
theorem foldl_pushRow_low (rows : List KRow) : ∀ out : Klines,
    (rows.foldl pushRow out).low = out.low ++ rows.map (fun r => r.low.val) := by
  induction rows with
  | nil => intro out; simp
  | cons r rest ih =>
    intro out
    rw [List.foldl_cons, ih]
    simp [pushRow]

/-- Close column of the accumulated rows. -/
theorem foldl_pushRow_close (rows : List KRow) : ∀ out : Klines,
    (rows.foldl pushRow out).close = out.close ++ rows.map (fun r => r.close.val) := by
  induction rows with
  | nil => intro out; simp
  | cons r rest ih =>
    intro out
    rw [List.foldl_cons, ih]
    simp [pushRow]

/-- C7: encoding a column-oriented candle series into the exchange's
nested-numeric-array text form (with the same literal number tokens) and
parsing it with the kline body parser reproduces the open-time, open,
high, low and close sequences exactly. -/
theorem kline_body_roundtrip (rows : List KRow) :
    (parse_kline_body (encodeKlines rows)).open_time
      = rows.map (fun r => (r.open_time : ℤ)) ∧
    (parse_kline_body (encodeKlines rows)).opn = rows.map (fun r => r.opn.val) ∧
    (parse_kline_body (encodeKlines rows)).high = rows.map (fun r => r.high.val) ∧
    (parse_kline_body (encodeKlines rows)).low = rows.map (fun r => r.low.val) ∧
    (parse_kline_body (encodeKlines rows)).close = rows.map (fun r => r.close.val) := by
  cases rows with
  | nil => exact ⟨rfl, rfl, rfl, rfl, rfl⟩
  | cons r rest =>
    have hout : parse_kline_body (encodeKlines (r :: rest))
        = ((r :: rest).foldl pushRow Klines.empty : Klines) := by
      unfold parse_kline_body encodeKlines
      simp only [List.cons_append]
      rw [List.foldl_cons, pkStep_open, List.foldl_append,
        joinFold (r :: rest) (by simp) true Klines.empty,
        List.foldl_cons, pkStep_close_idle]
      rfl
    rw [hout, foldl_pushRow_open_time, foldl_pushRow_opn, foldl_pushRow_high,
      foldl_pushRow_low, foldl_pushRow_close]
    exact ⟨by simp [Klines.empty], by simp [Klines.empty], by simp [Klines.empty],
      by simp [Klines.empty], by simp [Klines.empty]⟩
